import Mathlib

/-!
Verification of the patch-synthesis and validation subsystem of the
AutoSummarizationWithSuiteCRM repository.

Python strings are modelled as `List Char`; `str.splitlines` is modelled on
the `'\n'` separator (the texts handled by the tool are LF-separated).
Machine integers do not occur; Python ints are `Nat`/`Int`.
-/

namespace SuiteGen

/-- ASCII whitespace as recognised by Python `str.strip` and by regex `\s`. -/
def isSpaceChar (c : Char) : Bool :=
  c == ' ' || c == '\t' || c == '\n' || c == '\r' || c == '\x0b' || c == '\x0c'

/-- Python `str.strip()`. -/
def pyStrip (cs : List Char) : List Char :=
  ((cs.dropWhile isSpaceChar).reverse.dropWhile isSpaceChar).reverse

/-- `p` is a prefix of `s` (Python `str.startswith`). -/
def startsWithL : List Char → List Char → Bool
  | [], _ => true
  | _ :: _, [] => false
  | p :: ps, c :: cs => p == c && startsWithL ps cs

/-- Python `str.splitlines()` restricted to the `'\n'` separator: a final
separator does not open a trailing empty line. -/
def splitlines : List Char → List (List Char)
  | [] => []
  | c :: rest =>
    if c = '\n' then [] :: splitlines rest
    else
      match splitlines rest with
      | [] => [[c]]
      | l :: ls => (c :: l) :: ls

/-- Does the text contain the substring `"@@"` (Python `"@@" in text`)? -/
def hasAtAt : List Char → Bool
  | [] => false
  | [_] => false
  | a :: b :: rest => (a == '@' && b == '@') || hasAtAt (b :: rest)

/-- Decimal digits of a natural number, high digit first (fuelled so that it
evaluates in the kernel; the fuel in `natDigits` always suffices). -/
def natDigitsGo : Nat → Nat → List Char → List Char
  | 0, _, acc => acc
  | fuel + 1, n, acc =>
    if n < 10 then Nat.digitChar n :: acc
    else natDigitsGo fuel (n / 10) (Nat.digitChar (n % 10) :: acc)

/-- Decimal digits of a natural number, as Python `str(n)` produces them. -/
def natDigits (n : Nat) : List Char :=
  natDigitsGo (n + 1) n []

/-- Expect a literal; on success return the remaining input. -/
def expectLit : List Char → List Char → Option (List Char)
  | [], s => some s
  | _ :: _, [] => none
  | p :: ps, c :: cs => if p == c then expectLit ps cs else none

/-- The optional `,(\d+)` part of a hunk header (`(?:,(\d+))?`). -/
def skipOptCount (cs : List Char) : Option (List Char) :=
  match cs with
  | ',' :: rest =>
    let ds := rest.takeWhile Char.isDigit
    if ds.isEmpty then none else some (rest.dropWhile Char.isDigit)
  | _ => some cs

/-- One start field of the header: `(\d+)(?:,(\d+))?` — a non-empty digit
group followed by the optional count group. Returns the digit group and the
remaining input. -/
def parseStartField (cs : List Char) : Option (List Char × List Char) :=
  let ds := cs.takeWhile Char.isDigit
  if ds.isEmpty then none
  else (skipOptCount (cs.dropWhile Char.isDigit)).map (fun r => (ds, r))

/-- Match of `_HUNK_HEADER_RE = ^@@ -(\d+)(?:,(\d+))? \+(\d+)(?:,(\d+))? @@`
at the start of a line, returning groups 1 and 3 (the start positions, kept
as digit strings exactly as `generate_from_codebase.py` does). -/
def parseHunkHeader (l : List Char) : Option (List Char × List Char) :=
  match expectLit "@@ -".toList l with
  | none => none
  | some r1 =>
    match parseStartField r1 with
    | none => none
    | some (os, r3) =>
      match expectLit " +".toList r3 with
      | none => none
      | some r4 =>
        match parseStartField r4 with
        | none => none
        | some (ns, r6) =>
          match expectLit " @@".toList r6 with
          | none => none
          | some _ => some (os, ns)

/-- A line that ends the body of a hunk: the next header or a file boundary
(`body.startswith("@@") or "diff --git " or "--- " or "+++ "`). -/
def isBoundary (b : List Char) : Bool :=
  startsWithL ['@', '@'] b || startsWithL "diff --git ".toList b ||
    startsWithL "--- ".toList b || startsWithL "+++ ".toList b

/-- Result of scanning a hunk body in `normalize_unified_diff_hunk_counts`:
the recomputed counts, the body lines consumed, and the remaining lines. -/
structure BodyScan where
  oldCount : Nat
  newCount : Nat
  consumed : List (List Char)
  leftover : List (List Char)
deriving Repr, DecidableEq

/-- The inner `while j < len(lines)` loop of
`normalize_unified_diff_hunk_counts`: count body lines until the next
header/file boundary or the first malformed line. -/
def countBody : List (List Char) → BodyScan
  | [] => ⟨0, 0, [], []⟩
  | b :: rest =>
    if isBoundary b then ⟨0, 0, [], b :: rest⟩
    else if startsWithL ['\\'] b then
      let r := countBody rest
      ⟨r.oldCount, r.newCount, b :: r.consumed, r.leftover⟩
    else if startsWithL [' '] b then
      let r := countBody rest
      ⟨r.oldCount + 1, r.newCount + 1, b :: r.consumed, r.leftover⟩
    else if startsWithL ['-'] b then
      let r := countBody rest
      ⟨r.oldCount + 1, r.newCount, b :: r.consumed, r.leftover⟩
    else if startsWithL ['+'] b then
      let r := countBody rest
      ⟨r.oldCount, r.newCount + 1, b :: r.consumed, r.leftover⟩
    else ⟨0, 0, [], b :: rest⟩

/-- The rewritten header line `f"@@ -{old_start},{old_count} +{new_start},{new_count} @@"`. -/
def mkHeaderL (os : List Char) (oc : Nat) (ns : List Char) (nc : Nat) : List Char :=
  "@@ -".toList ++ os ++ ',' :: natDigits oc ++ " +".toList ++ ns ++ ',' :: natDigits nc ++ " @@".toList

/-- The outer loop of `normalize_unified_diff_hunk_counts` over the line
list, fuelled (the fuel — one unit per line — always suffices, see
`normLinesF_fuel`): non-header lines are copied, each header is rewritten
with recomputed counts and its body lines are copied verbatim. -/
def normLinesF : Nat → List (List Char) → List (List Char)
  | _, [] => []
  | 0, l :: rest => l :: rest
  | fuel + 1, l :: rest =>
    match parseHunkHeader l with
    | none => l :: normLinesF fuel rest
    | some (os, ns) =>
      let r := countBody rest
      mkHeaderL os r.oldCount ns r.newCount :: (r.consumed ++ normLinesF fuel r.leftover)

def normLines (L : List (List Char)) : List (List Char) :=
  normLinesF L.length L

/-- `normalize_unified_diff_hunk_counts` from `generate_from_codebase.py`. -/
def normalize_unified_diff_hunk_counts (text : List Char) : List Char :=
  if hasAtAt text then List.intercalate ['\n'] (normLines (splitlines text))
  else text

/-- Python `s.split(sep)` for a one-character separator (keeps empty parts). -/
def splitOnChar (sep : Char) : List Char → List (List Char)
  | [] => [[]]
  | c :: rest =>
    if c = sep then [] :: splitOnChar sep rest
    else
      match splitOnChar sep rest with
      | [] => [[c]]
      | l :: ls => (c :: l) :: ls

/-- Python `rel_path.replace("\\", "/")`. -/
def replaceBackslash (cs : List Char) : List Char :=
  cs.map (fun c => if c == '\\' then '/' else c)

/-- `_is_safe_relative_path` from `generate_from_codebase.py`. -/
def is_safe_relative_path (rel : List Char) : Bool :=
  let p := pyStrip (replaceBackslash rel)
  if p.isEmpty || startsWithL ['/'] p then false
  else if p.contains ':' then false
  else if ((splitOnChar '/' p).filter (fun s => !s.isEmpty)).any
      (fun s => s == "..".toList) then false
  else true

/-- The rejection predicate exactly as claim C2 words it: the raw path is
empty after trimming, starts with `/`, contains `:`, or has a `..` segment
after splitting on both `/` and `\`. -/
def claimC2UnsafePath (p : List Char) : Bool :=
  (pyStrip p).isEmpty || startsWithL ['/'] p || p.contains ':' ||
    ((splitOnChar '/' p).flatMap (splitOnChar '\\')).any (fun s => s == "..".toList)

/-- The rejection predicate as the code implements it: after replacing every
backslash by a slash and trimming whitespace, the path is empty, starts with
`/`, contains `:`, or has a `..` segment when split on `/`. -/
def amendedUnsafePath (p : List Char) : Bool :=
  let q := pyStrip (replaceBackslash p)
  q.isEmpty || startsWithL ['/'] q || q.contains ':' ||
    (splitOnChar '/' q).any (fun s => s == "..".toList)

/-- `Path.resolve()` on a segment list of an absolute path (no-symlink model):
drops empty and `.` segments, pops one segment on `..` (staying at the root
when already there). -/
def resolveSegs (segs : List (List Char)) : List (List Char) :=
  segs.foldl (fun acc s =>
    if s.isEmpty || s == ".".toList then acc
    else if s == "..".toList then acc.dropLast
    else acc ++ [s]) []

/-- `(module_dir / rel_path).resolve()` in `write_module_files`: `pathlib`
replaces the base entirely when the joined path is absolute. -/
def resolveTarget (moduleDir : List (List Char)) (rel : List Char) : List (List Char) :=
  if startsWithL ['/'] rel then resolveSegs (splitOnChar '/' rel)
  else resolveSegs (moduleDir ++ splitOnChar '/' rel)

/-- `target.parents` of an absolute path: all strict ancestors down to the root. -/
def parentsList (t : List (List Char)) : List (List (List Char)) :=
  (List.range t.length).map (fun i => t.take i)

/-- The containment check of `write_module_files`: the write proceeds unless
`module_dir not in target.parents and target != module_dir`. -/
def write_target_allowed (moduleDir : List (List Char)) (rel : List Char) : Bool :=
  let target := resolveTarget moduleDir rel
  if !(parentsList target).contains moduleDir && target != moduleDir then false
  else true

/-- Regex `\w` (ASCII model). -/
def isWordChar (c : Char) : Bool := c.isAlphanum || c == '_'

def toLowerL (cs : List Char) : List Char := cs.map Char.toLower

/-- Case-insensitive literal match (pattern pre-lowercased); returns the rest. -/
def matchLitCI : List Char → List Char → Option (List Char)
  | [], s => some s
  | _ :: _, [] => none
  | p :: ps, c :: cs => if c.toLower == p then matchLitCI ps cs else none

/-- Regex `\s+` (greedy, deterministic here since every continuation in the
signature pattern starts with a non-space character). -/
def matchWsPlus (cs : List Char) : Option (List Char) :=
  match cs with
  | c :: rest => if isSpaceChar c then some (rest.dropWhile isSpaceChar) else none
  | [] => none

/-- Regex `(?:public\s+|protected\s+|private\s+)?` of `_find_php_function_span`. -/
def matchModifiers (cs : List Char) : List Char :=
  match (matchLitCI "public".toList cs).bind matchWsPlus with
  | some r => r
  | none =>
    match (matchLitCI "protected".toList cs).bind matchWsPlus with
    | some r => r
    | none =>
      match (matchLitCI "private".toList cs).bind matchWsPlus with
      | some r => r
      | none => cs

/-- The signature regex after the `(^|[^\w])` delimiter:
`(?:public\s+|protected\s+|private\s+)?(?:static\s+)?function\s+NAME\s*\(`,
with `re.IGNORECASE`. -/
def sigCore (nameL : List Char) (cs : List Char) : Option (List Char) :=
  let c1 := matchModifiers cs
  let c2 := match (matchLitCI "static".toList c1).bind matchWsPlus with
            | some r => r
            | none => c1
  match matchLitCI "function".toList c2 with
  | none => none
  | some r =>
    match matchWsPlus r with
    | none => none
    | some r2 =>
      match matchLitCI nameL r2 with
      | none => none
      | some r3 =>
        match r3.dropWhile isSpaceChar with
        | '(' :: r5 => some r5
        | _ => none

/-- Try the whole signature regex with its match starting at position `p`
(`(^|[^\w])` prefers the zero-width `^` at position 0); returns `m.end(0)`. -/
def trySigAt (t : List Char) (nameL : List Char) (p : Nat) : Option Nat :=
  let tail := t.drop p
  let viaDelim : Option Nat :=
    match tail with
    | c :: tl =>
      if !isWordChar c then
        match sigCore nameL tl with
        | some r => some (t.length - r.length)
        | none => none
      else none
    | [] => none
  if p == 0 then
    match sigCore nameL tail with
    | some r => some (t.length - r.length)
    | none => viaDelim
  else viaDelim

/-- `re.search` of the signature regex: leftmost match, as `(m.start, m.end)`. -/
def searchSig (t : List Char) (nameL : List Char) : Option (Nat × Nat) :=
  (List.range (t.length + 1)).findSome? (fun p =>
    (trySigAt t nameL p).map (fun e => (p, e)))

/-- Python `s.find(sub, lo, hi)`: least index of `sub` inside `s[lo:hi]`. -/
def findSubFrom (t : List Char) (sub : List Char) (lo hi : Nat) : Option Nat :=
  (List.range (t.length + 1)).findSome? (fun i =>
    if lo ≤ i ∧ i + sub.length ≤ hi ∧ startsWithL sub (t.drop i) then some i
    else none)

def findCharAux (c : Char) : List Char → Nat → Option Nat
  | [], _ => none
  | d :: rest, i => if d == c then some i else findCharAux c rest (i + 1)

/-- Python `text.find(c, p)`: least index `≥ p` holding `c`. -/
def findCharFrom (t : List Char) (c : Char) (p : Nat) : Option Nat :=
  findCharAux c (t.drop p) p

inductive SpanErr where
  | notFound
  | noOpenBrace
  | braceMismatch
deriving Repr, DecidableEq

deriving instance DecidableEq for Except

/-- The brace-depth scan loop of `_find_php_function_span`. Arguments: fuel,
remaining text, absolute index `i`, `depth`, `in_sq`, `in_dq`,
`in_line_comment`, `in_block_comment`, `escape`. Returns `some (i + 1)` when
`depth` reaches 0, `none` at end of text (brace mismatch). -/
def scanBodyF : Nat → List Char → Nat → Int → Bool → Bool → Bool → Bool → Bool → Option Nat
  | _, [], _, _, _, _, _, _, _ => none
  | 0, _ :: _, _, _, _, _, _, _, _ => none
  | fuel + 1, c :: rest, i, depth, sq, dq, lc, bc, esc =>
    if lc then
      if c == '\n' then scanBodyF fuel rest (i + 1) depth sq dq false bc esc
      else scanBodyF fuel rest (i + 1) depth sq dq true bc esc
    else if bc then
      match c, rest with
      | '*', '/' :: rest2 => scanBodyF fuel rest2 (i + 2) depth sq dq lc false esc
      | _, _ => scanBodyF fuel rest (i + 1) depth sq dq lc true esc
    else if sq then
      if esc then scanBodyF fuel rest (i + 1) depth true dq lc bc false
      else if c == '\\' then scanBodyF fuel rest (i + 1) depth true dq lc bc true
      else if c == '\'' then scanBodyF fuel rest (i + 1) depth false dq lc bc esc
      else scanBodyF fuel rest (i + 1) depth true dq lc bc esc
    else if dq then
      if esc then scanBodyF fuel rest (i + 1) depth sq true lc bc false
      else if c == '\\' then scanBodyF fuel rest (i + 1) depth sq true lc bc true
      else if c == '"' then scanBodyF fuel rest (i + 1) depth sq false lc bc esc
      else scanBodyF fuel rest (i + 1) depth sq true lc bc esc
    else
      match c, rest with
      | '/', '/' :: rest2 => scanBodyF fuel rest2 (i + 2) depth sq dq true bc esc
      | '/', '*' :: rest2 => scanBodyF fuel rest2 (i + 2) depth sq dq lc true esc
      | _, _ =>
        if c == '#' then scanBodyF fuel rest (i + 1) depth sq dq true bc esc
        else if c == '\'' then scanBodyF fuel rest (i + 1) depth true dq lc bc esc
        else if c == '"' then scanBodyF fuel rest (i + 1) depth sq true lc bc esc
        else if c == '{' then scanBodyF fuel rest (i + 1) (depth + 1) sq dq lc bc esc
        else if c == '}' then
          if depth - 1 == 0 then some (i + 1)
          else scanBodyF fuel rest (i + 1) (depth - 1) sq dq lc bc esc
        else scanBodyF fuel rest (i + 1) depth sq dq lc bc esc

/-- The brace-depth scan loop, started at the opening brace; the fuel (one
unit per character) always suffices since every step consumes at least one
character. -/
def scanBody (cs : List Char) (i : Nat) (depth : Int)
    (sq dq lc bc esc : Bool) : Option Nat :=
  scanBodyF cs.length cs i depth sq dq lc bc esc

/-- `_find_php_function_span` from `refactor_to_patch.py`. The opening brace
is located by a plain `text.find("{", m.end(0))` (not lexical-aware); the
string/comment-aware scanner only runs from that brace onward. -/
def find_php_function_span (t : List Char) (name : List Char) : Except SpanErr (Nat × Nat) :=
  match searchSig t (toLowerL name) with
  | none => .error .notFound
  | some (ms, me) =>
    let start := match findSubFrom (toLowerL t) "function".toList ms me with
                 | some k => k
                 | none => ms
    match findCharFrom t '{' me with
    | none => .error .noOpenBrace
    | some bo =>
      match scanBody (t.drop bo) bo 0 false false false false false with
      | some e => .ok (start, e)
      | none => .error .braceMismatch

/-- Value of a character in the standard base64 alphabet. -/
def b64Val (c : Char) : Option Nat :=
  if 'A' ≤ c ∧ c ≤ 'Z' then some (c.toNat - 'A'.toNat)
  else if 'a' ≤ c ∧ c ≤ 'z' then some (c.toNat - 'a'.toNat + 26)
  else if '0' ≤ c ∧ c ≤ '9' then some (c.toNat - '0'.toNat + 52)
  else if c = '+' then some 62
  else if c = '/' then some 63
  else none

/-- Emit the bytes of a complete or padded-final base64 quad (2, 3 or 4
sextets). -/
def b64Emit (quad : List Nat) : List Nat :=
  match quad with
  | [a, b] => [(a * 64 + b) / 16]
  | [a, b, c] =>
    let v := (a * 64 + b) * 64 + c
    [v / 1024, v / 4 % 256]
  | [a, b, c, d] =>
    let v := ((a * 64 + b) * 64 + c) * 64 + d
    [v / 65536, v / 256 % 256, v % 256]
  | _ => []

/-- CPython `binascii.a2b_base64` with `strict_mode=False` (the semantics of
`base64.b64decode(..., validate=False)`): invalid characters are skipped, a
data character resets the pending-pad counter, and a `=` completes the final
quad once at least two sextets are pending, ignoring any trailing input.
`none` models `binascii.Error`. -/
def a2bBase64 : List Char → List Nat → Nat → Option (List Nat)
  | [], quad, _ =>
    if quad.length = 0 then some []
    else none
  | c :: rest, quad, pads =>
    if c = '=' then
      if 2 ≤ quad.length ∧ 4 ≤ quad.length + pads + 1 then some (b64Emit quad)
      else a2bBase64 rest quad (pads + 1)
    else
      match b64Val c with
      | none => a2bBase64 rest quad pads
      | some v =>
        if quad.length = 3 then
          (a2bBase64 rest [] 0).map (fun tl => b64Emit (quad ++ [v]) ++ tl)
        else a2bBase64 rest (quad ++ [v]) 0

/-- `base64.b64decode(s, validate=False)`. -/
def pyB64Decode (cs : List Char) : Option (List Nat) :=
  a2bBase64 cs [] 0

/-- `base64.urlsafe_b64decode(s)`: translate `-`/`_` to `+`/`/`, then decode. -/
def pyUrlsafeB64Decode (cs : List Char) : Option (List Nat) :=
  pyB64Decode (cs.map (fun c => if c = '-' then '+' else if c = '_' then '/' else c))

def isUtf8Cont (b : Nat) : Bool := 0x80 ≤ b && b ≤ 0xBF

/-- Strict UTF-8 decoding of a byte list (`bytes.decode("utf-8")`);
rejects overlong forms, surrogates and out-of-range code points. -/
def utf8Decode : List Nat → Option (List Char)
  | [] => some []
  | b :: rest =>
    if h1 : b < 0x80 then
      (utf8Decode rest).map (fun tl => Char.ofNat b :: tl)
    else if b < 0xC2 then none
    else if b < 0xE0 then
      match rest with
      | b2 :: rest2 =>
        if isUtf8Cont b2 then
          (utf8Decode rest2).map (fun tl => Char.ofNat ((b - 0xC0) * 64 + (b2 - 0x80)) :: tl)
        else none
      | [] => none
    else if b < 0xF0 then
      match rest with
      | b2 :: b3 :: rest3 =>
        if isUtf8Cont b2 && isUtf8Cont b3 then
          let v := (b - 0xE0) * 4096 + (b2 - 0x80) * 64 + (b3 - 0x80)
          if 0x800 ≤ v ∧ ¬(0xD800 ≤ v ∧ v ≤ 0xDFFF) then
            (utf8Decode rest3).map (fun tl => Char.ofNat v :: tl)
          else none
        else none
      | _ => none
    else if b < 0xF5 then
      match rest with
      | b2 :: b3 :: b4 :: rest4 =>
        if isUtf8Cont b2 && isUtf8Cont b3 && isUtf8Cont b4 then
          let v := (b - 0xF0) * 262144 + (b2 - 0x80) * 4096 + (b3 - 0x80) * 64 + (b4 - 0x80)
          if 0x10000 ≤ v ∧ v ≤ 0x10FFFF then
            (utf8Decode rest4).map (fun tl => Char.ofNat v :: tl)
          else none
        else none
      | _ => none
    else none

/-- `bytes.decode("latin-1")`: total, byte `n` becomes code point `n`. -/
def latin1Decode (bs : List Nat) : List Char :=
  bs.map Char.ofNat

/-- `decoded_bytes.decode("utf-8")` with the `UnicodeDecodeError → latin-1`
fallback used in `parse_file_bundle`. -/
def decodeUtf8OrLatin1 (bs : List Nat) : List Char :=
  match utf8Decode bs with
  | some s => s
  | none => latin1Decode bs

/-- `re.sub(r"\s+", "", s)`. -/
def removeSpaces (cs : List Char) : List Char :=
  cs.filter (fun c => !isSpaceChar c)

/-- `re.fullmatch(r"[A-Za-z0-9+/=_-]+", s)` as a Bool. -/
def b64CharsetOk (cs : List Char) : Bool :=
  !cs.isEmpty && cs.all (fun c =>
    c.isAlpha || c.isDigit || c == '+' || c == '/' || c == '=' || c == '_' || c == '-')

/-- The `content_b64` branch of `parse_file_bundle`: charset check, padding,
standard then URL-safe base64, UTF-8 with Latin-1 fallback, and the literal
`content` / `content_b64` last resorts. -/
def b64Branch (contentB64 : List Char) (content : List Char) : List Char :=
  let raw := removeSpaces (pyStrip contentB64)
  if !b64CharsetOk raw then
    if !(pyStrip content).isEmpty then content else contentB64
  else
    let padded := raw ++ List.replicate ((4 - raw.length % 4) % 4) '='
    match pyB64Decode padded with
    | some bs => decodeUtf8OrLatin1 bs
    | none =>
      match pyUrlsafeB64Decode padded with
      | some bs => decodeUtf8OrLatin1 bs
      | none =>
        if !(pyStrip content).isEmpty then content else contentB64

/-- One entry of a parsed file bundle, after the `isinstance` checks of
`parse_file_bundle`: `content_lines` when it is a list, `content_b64` when it
is a string, and `content` as `str(item.get("content") or "")`. -/
structure BundleEntry where
  path : List Char
  content_lines : Option (List (List Char))
  content_b64 : Option (List Char)
  content : List Char
deriving Repr, DecidableEq

/-- The per-entry decoding logic of `parse_file_bundle` (the `decoded`
variable just before the empty-content check): `content_lines` joined with
`\n` is assigned first, but an `if`/`elif` chain then overwrites it whenever
`content_b64` is a non-blank string, or else whenever `content` is non-blank. -/
def decodeBundleEntry (e : BundleEntry) : Option (List Char) :=
  let dLines : Option (List Char) :=
    match e.content_lines with
    | some ls => if ls.isEmpty then none else some (List.intercalate ['\n'] ls)
    | none => none
  match e.content_b64 with
  | some b =>
    if !(pyStrip b).isEmpty then some (b64Branch b e.content)
    else if !(pyStrip e.content).isEmpty then some e.content
    else dLines
  | none =>
    if !(pyStrip e.content).isEmpty then some e.content
    else dLines

/-- One structured validator observation (`Finding` in
`validate_generated_output.py`). -/
structure Finding where
  severity : List Char
  code : List Char
  message : List Char
deriving Repr, DecidableEq

/-- Does some position of the text satisfy `f prev suffix` (`re.search`)? -/
def anyPosAux (f : Option Char → List Char → Bool) : Option Char → List Char → Bool
  | prev, cs =>
    f prev cs ||
      match cs with
      | [] => false
      | c :: rest => anyPosAux f (some c) rest

/-- `(?m)^` holds here: start of text or just after a newline. -/
def isLineStart (prev : Option Char) : Bool :=
  match prev with
  | none => true
  | some c => c == '\n'

/-- Regex `\b` before the position. -/
def boundaryPrev (prev : Option Char) : Bool :=
  match prev with
  | none => true
  | some c => !isWordChar c

/-- Regex `\b` after a match ending here. -/
def wordBoundAfter (cs : List Char) : Bool :=
  match cs.head? with
  | none => true
  | some c => !isWordChar c

/-- `(TODO|FIXME|TBD)\b` with `re.IGNORECASE`. -/
def kwTodoCI (cs : List Char) : Bool :=
  ["todo".toList, "fixme".toList, "tbd".toList].any (fun k =>
    match matchLitCI k cs with
    | some r => wordBoundAfter r
    | none => false)

/-- A match of `(?mi)^(\s*//\s*)?(TODO|FIXME|TBD)\b` starting here. -/
def todoAt (prev : Option Char) (cs : List Char) : Bool :=
  isLineStart prev &&
    (kwTodoCI cs ||
      (match expectLit "//".toList (cs.dropWhile isSpaceChar) with
       | some r => kwTodoCI (r.dropWhile isSpaceChar)
       | none => false))

/-- A match of `NotImplemented(Exception)?\b` starting here (case-sensitive). -/
def notImplAt (_prev : Option Char) (cs : List Char) : Bool :=
  match expectLit "NotImplemented".toList cs with
  | some r =>
    (match expectLit "Exception".toList r with
     | some r2 => wordBoundAfter r2
     | none => false) || wordBoundAfter r
  | none => false

/-- A match of `(?i)\bREPLACE_ME\b` starting here. -/
def replaceMeAt (prev : Option Char) (cs : List Char) : Bool :=
  boundaryPrev prev &&
    (match matchLitCI "replace_me".toList cs with
     | some r => wordBoundAfter r
     | none => false)

/-- The character class `[A-Z0-9_]` under `re.IGNORECASE`. -/
def isPlaceholderCls (c : Char) : Bool := c.isAlpha || c.isDigit || c == '_'

/-- A match of `(?i)<YOUR_[A-Z0-9_]+>` starting here. -/
def yourValueAt (_prev : Option Char) (cs : List Char) : Bool :=
  match cs with
  | '<' :: cs1 =>
    match matchLitCI "your_".toList cs1 with
    | some r =>
      !(r.takeWhile isPlaceholderCls).isEmpty &&
        (r.dropWhile isPlaceholderCls).head? == some '>'
    | none => false
  | _ => false

/-- A match of `(?i)\b(example\.com|foo\.bar|lorem ipsum)\b` starting here. -/
def exampleAt (prev : Option Char) (cs : List Char) : Bool :=
  boundaryPrev prev &&
    ["example.com".toList, "foo.bar".toList, "lorem ipsum".toList].any (fun k =>
      match matchLitCI k cs with
      | some r => wordBoundAfter r
      | none => false)

/-- `(\.\.\.|â€¦)+` — the ellipsis pattern's repeated unit; the second
alternative is the literal mojibake three-character sequence present in the
source. -/
def ellipsisUnits : List Char → Bool
  | [] => true
  | '.' :: '.' :: '.' :: rest => ellipsisUnits rest
  | 'â' :: '€' :: '¦' :: rest => ellipsisUnits rest
  | _ => false

/-- Membership of a segment in `\s*(\.\.\.|â€¦)+\s*`. -/
def segEllipsisOk (seg : List Char) : Bool :=
  let s1 := seg.dropWhile isSpaceChar
  let s2 := (s1.reverse.dropWhile isSpaceChar).reverse
  !s2.isEmpty && ellipsisUnits s2

/-- A match of `(?m)^\s*(\.\.\.|â€¦)+\s*$` starting here: some segment up to
an end-of-line position belongs to the pattern's language. -/
def ellipsisAt (prev : Option Char) (cs : List Char) : Bool :=
  isLineStart prev &&
    (List.range (cs.length + 1)).any (fun q =>
      ((cs.drop q).isEmpty || (cs.drop q).head? == some '\n') && segEllipsisOk (cs.take q))

def searchTodo (t : List Char) : Bool := anyPosAux todoAt none t
def searchNotImpl (t : List Char) : Bool := anyPosAux notImplAt none t
def searchReplaceMe (t : List Char) : Bool := anyPosAux replaceMeAt none t
def searchYourValue (t : List Char) : Bool := anyPosAux yourValueAt none t
def searchExample (t : List Char) : Bool := anyPosAux exampleAt none t
def searchEllipsis (t : List Char) : Bool := anyPosAux ellipsisAt none t

/-- `_PLACEHOLDER_PATTERNS`: severity, code, pattern source, search function. -/
def placeholderChecks : List (List Char × List Char × List Char × (List Char → Bool)) :=
  [ ("error".toList, "placeholder.todo".toList,
      "(?mi)^(\\s*//\\s*)?(TODO|FIXME|TBD)\\b".toList, searchTodo),
    ("error".toList, "placeholder.not_implemented".toList,
      "NotImplemented(Exception)?\\b".toList, searchNotImpl),
    ("warn".toList, "placeholder.replace_me".toList,
      "(?i)\\bREPLACE_ME\\b".toList, searchReplaceMe),
    ("warn".toList, "placeholder.your_value".toList,
      "(?i)<YOUR_[A-Z0-9_]+>".toList, searchYourValue),
    ("warn".toList, "placeholder.example".toList,
      "(?i)\\b(example\\.com|foo\\.bar|lorem ipsum)\\b".toList, searchExample),
    ("warn".toList, "artifact.ellipsis".toList,
      "(?m)^\\s*(\\.\\.\\.|â€¦)+\\s*$".toList, searchEllipsis) ]

def isTick (c : Char) : Bool := c.toNat == 96

/-- Python `"```" in text`. -/
def hasTripleTick : List Char → Bool
  | a :: b :: c :: rest => (isTick a && isTick b && isTick c) || hasTripleTick (b :: c :: rest)
  | _ => false

/-- `_INCLUDE_RE` matched at one position: keyword (longest alternatives
first), `\s*`, optional `(`, `\s*`, a quote, a non-empty run of non-quote
characters (the capture), and a closing quote of either kind. Returns the
capture, the closing quote, and the rest of the text after the match. -/
def matchIncludeAt (prev : Option Char) (cs : List Char) :
    Option (List Char × Char × List Char) :=
  if !boundaryPrev prev then none
  else
    match ["require_once".toList, "require".toList, "include_once".toList,
           "include".toList].findSome? (fun k => matchLitCI k cs) with
    | none => none
    | some r1 =>
      let r2 := r1.dropWhile isSpaceChar
      let r3 := match r2 with
                | '(' :: tl => tl
                | _ => r2
      let r4 := r3.dropWhile isSpaceChar
      match r4 with
      | q :: r5 =>
        if q = '\'' ∨ q = '"' then
          let body := r5.takeWhile (fun c => c != '\'' && c != '"')
          if body.isEmpty then none
          else
            match r5.dropWhile (fun c => c != '\'' && c != '"') with
            | q2 :: r6 => some (body, q2, r6)
            | [] => none
        else none
      | [] => none

/-- `_INCLUDE_RE.findall`, second capture group: leftmost, non-overlapping. -/
def findallIncludeAux : Nat → Option Char → List Char → List (List Char)
  | 0, _, _ => []
  | fuel + 1, prev, cs =>
    match matchIncludeAt prev cs with
    | some (body, q2, rest) => body :: findallIncludeAux fuel (some q2) rest
    | none =>
      match cs with
      | [] => []
      | c :: rest => findallIncludeAux fuel (some c) rest

def findallInclude (t : List Char) : List (List Char) :=
  findallIncludeAux t.length none t

/-- The markdown-fence check of `validate_text`. -/
def fenceFindings (text : List Char) : List Finding :=
  if hasTripleTick text then
    [⟨"warn".toList, "artifact.markdown_fence".toList,
      "Output contains markdown code fences (```), which often indicates non-code artifacts.".toList⟩]
  else []

/-- The finding appended for one placeholder pattern when `re.search` hits. -/
def mkPatternFinding (text : List Char)
    (pc : List Char × List Char × List Char × (List Char → Bool)) : Option Finding :=
  if pc.2.2.2 text then some ⟨pc.1, pc.2.1, "Matched pattern: ".toList ++ pc.2.2.1⟩
  else none

/-- The placeholder-pattern loop of `validate_text`: one finding per matched
pattern, in table order. -/
def patternFindings (text : List Char) : List Finding :=
  placeholderChecks.filterMap (mkPatternFinding text)

/-- The include/require path check for one captured path. -/
def mkIncludeFinding (pathOk : List Char → Bool) (raw0 : List Char) : Option Finding :=
  let raw := pyStrip raw0
  if raw.isEmpty || startsWithL "http://".toList raw || startsWithL "https://".toList raw then
    none
  else if raw.contains '$' || raw.contains '{' || raw.contains '}' then none
  else if !pathOk raw then
    some ⟨"warn".toList, "path.missing".toList,
      "Referenced path not found under SuiteCRM root: ".toList ++ raw⟩
  else none

/-- The include/require existence loop of `validate_text`. -/
def includeFindings (text : List Char) (pathOk : List Char → Bool) : List Finding :=
  (findallInclude text).filterMap (mkIncludeFinding pathOk)

/-- `validate_text` from `validate_generated_output.py`. The filesystem check
`(suitecrm_root / raw_path).resolve().exists()` is abstracted as `pathOk`. -/
def validate_text (text : List Char) (pathOk : List Char → Bool) : List Finding :=
  fenceFindings text ++ patternFindings text ++ includeFindings text pathOk

/-- `(?m)^pre` as a search over whole lines. -/
def searchLineStart (pre : List Char) (t : List Char) : Bool :=
  (splitlines t).any (fun l => startsWithL pre l)

/-- `looks_like_unified_diff`; the `input_path.suffix` test is the Bool
argument. -/
def looks_like_unified_diff (text : List Char) (isDiffSuffix : Bool) : Bool :=
  isDiffSuffix || searchLineStart "diff --git ".toList text ||
    (searchLineStart "--- ".toList text && searchLineStart "+++ ".toList text) ||
    searchLineStart "@@ ".toList text

/-- The hunk-line loop of `validate_unified_diff` (`break` ends the loop). -/
def diffHunkLoop : List (List Char) → Bool → List Finding
  | [], _ => []
  | l :: rest, inHunk =>
    if startsWithL ['@', '@'] l then diffHunkLoop rest true
    else if inHunk then
      if startsWithL "diff --git ".toList l || startsWithL "--- ".toList l ||
          startsWithL "+++ ".toList l then diffHunkLoop rest false
      else if l.isEmpty then
        [⟨"error".toList, "patch.invalid_hunk_line".toList,
          "Empty line inside a diff hunk; blank context lines must start with a single space.".toList⟩]
      else if !(startsWithL [' '] l || startsWithL ['+'] l ||
          startsWithL ['-'] l || startsWithL ['\\'] l) then
        [⟨"error".toList, "patch.invalid_hunk_line".toList,
          "Invalid hunk line prefix: ".toList ++ l.take 20⟩]
      else diffHunkLoop rest true
    else diffHunkLoop rest false

/-- `validate_unified_diff` from `validate_generated_output.py`. -/
def validate_unified_diff (text : List Char) : List Finding :=
  let hasHunk := searchLineStart "@@ ".toList text
  let hasDiffGit := searchLineStart "diff --git ".toList text
  let hasHeaders := searchLineStart "--- ".toList text && searchLineStart "+++ ".toList text
  let h1 : List Finding :=
    if hasHunk && !(hasDiffGit || hasHeaders) then
      [⟨"error".toList, "patch.missing_headers".toList,
        "Looks like a unified diff (has @@ hunks) but is missing diff/file headers (diff --git and/or ---/+++).".toList⟩]
    else []
  let h2 := diffHunkLoop (splitlines text) false
  let h3 : List Finding :=
    if !(pyStrip text).isEmpty && !(text.getLast? == some '\n') then
      [⟨"warn".toList, "artifact.missing_trailing_newline".toList,
        "Output does not end with a trailing newline.".toList⟩]
    else []
  h1 ++ h2 ++ h3

/-- The finding list assembled by `validate_file`; `run_php_lint_if_applicable`
performs process/filesystem IO and is abstracted as the `lintFinding`
argument (`none` when it returns `None`, e.g. under `--no-php-lint`). -/
def validate_file_findings (text : List Char) (pathOk : List Char → Bool)
    (isDiffSuffix : Bool) (lintFinding : Option Finding) : List Finding :=
  validate_text text pathOk ++
    (if looks_like_unified_diff text isDiffSuffix then validate_unified_diff text else []) ++
    lintFinding.toList

/-- One per-severity count of the report dict built by `validate_file`. -/
def countSeverity (fs : List Finding) (sev : List Char) : Nat :=
  (fs.filter (fun f => f.severity == sev)).length

/-- The exit code computed by `main`: 2 when the error list is non-empty,
otherwise 0. -/
def main_exit_code (text : List Char) (pathOk : List Char → Bool)
    (isDiffSuffix : Bool) (lintFinding : Option Finding) : Nat :=
  let findings := validate_file_findings text pathOk isDiffSuffix lintFinding
  if (findings.filter (fun f => f.severity == "error".toList)).isEmpty then 0 else 2

/-- Number of findings carrying a given code. -/
def countCode (fs : List Finding) (code : List Char) : Nat :=
  (fs.filter (fun f => f.code == code)).length

/-- A line at which the hunk-body count loop stops: a header/file boundary or
a malformed line (not starting with a space, `-`, `+` or `\`). -/
def stopsScan (b : List Char) : Bool :=
  isBoundary b || !(startsWithL [' '] b || startsWithL ['-'] b ||
    startsWithL ['+'] b || startsWithL ['\\'] b)

/-- A well-formed hunk-body line that the count loop consumes. -/
def isCleanBody (b : List Char) : Bool := !stopsScan b

/-- The first line of a line list, if any, stops the hunk-body scan. -/
def headStops : List (List Char) → Bool
  | [] => true
  | m :: _ => stopsScan m

/-- Number of body lines starting with a space or `-` (the repaired oldCount). -/
def oldCountOf (bs : List (List Char)) : Nat :=
  (bs.filter (fun b => startsWithL [' '] b || startsWithL ['-'] b)).length

/-- Number of body lines starting with a space or `+` (the repaired newCount). -/
def newCountOf (bs : List (List Char)) : Nat :=
  (bs.filter (fun b => startsWithL [' '] b || startsWithL ['+'] b)).length

/-- Text of an optional count group. -/
def optC : Option (List Char) → List Char
  | some d => ',' :: d
  | none => []

/-- A hunk-header line with optional original counts and arbitrary trailing
text after the closing `@@`. -/
def rawHunkHeader (os : List Char) (oc : Option (List Char)) (ns : List Char)
    (nc : Option (List Char)) (extra : List Char) : List Char :=
  "@@ -".toList ++ os ++ optC oc ++ " +".toList ++ ns ++ optC nc ++ " @@".toList ++ extra

/-- An optional count group is either absent or a non-empty digit string. -/
def digitsOpt : Option (List Char) → Bool
  | none => true
  | some d => !d.isEmpty && d.all Char.isDigit

/-- The document of the spec's span-detection test:
`function f() { $s = "{"; return 1; }`. -/
def phpDoc7 : List Char :=
  "function f() \x7b $s = \"\x7b\"; return 1; \x7d".toList

/-- A document with a `{` inside a comment between the signature and the body. -/
def phpDocComment : List Char :=
  "function f() /* \x7b */ \x7b return 1; \x7d".toList

/-- The same document without the comment brace. -/
def phpDocPlain : List Char :=
  "function f() \x7b return 1; \x7d".toList

/-! ### Basic lemmas -/

theorem startsWithL_single_iff (c : Char) (b : List Char) :
    startsWithL [c] b = true ↔ ∃ t, b = c :: t := by
  cases b with
  | nil => simp [startsWithL]
  | cons x t =>
    constructor
    · intro h
      have hx : c = x := by
        have : (c == x && startsWithL [] t) = true := h
        simp at this
        exact this.1
      exact ⟨t, by rw [hx]⟩
    · rintro ⟨t', ht'⟩
      cases ht'
      simp [startsWithL]

theorem expectLit_append (p r : List Char) : expectLit p (p ++ r) = some r := by
  induction p with
  | nil => rfl
  | cons c p ih => simp [expectLit, ih]

theorem takeWhile_append_stop {p : Char → Bool} {xs : List Char} (y : Char)
    (ys : List Char) (hx : ∀ x ∈ xs, p x = true) (hy : p y = false) :
    (xs ++ y :: ys).takeWhile p = xs ∧ (xs ++ y :: ys).dropWhile p = y :: ys := by
  induction xs with
  | nil => simp [List.takeWhile, List.dropWhile, hy]
  | cons x xs ih =>
    have hpx : p x = true := hx x (by simp)
    have ih' := ih (fun a ha => hx a (by simp [ha]))
    simp [List.takeWhile, List.dropWhile, hpx, ih'.1, ih'.2]

/-! ### Hunk-count repair: body scanning -/

theorem countBody_leftover_length_le (bs : List (List Char)) :
    (countBody bs).leftover.length ≤ bs.length := by
  induction bs with
  | nil => simp [countBody]
  | cons b rest ih =>
    simp only [countBody]
    split
    · simp
    · split
      · simpa using Nat.le_succ_of_le ih
      · split
        · simpa using Nat.le_succ_of_le ih
        · split
          · simpa using Nat.le_succ_of_le ih
          · split
            · simpa using Nat.le_succ_of_le ih
            · simp

theorem countBody_stop (m : List Char) (ts : List (List Char))
    (h : stopsScan m = true) : countBody (m :: ts) = ⟨0, 0, [], m :: ts⟩ := by
  by_cases hb : isBoundary m = true
  · simp [countBody, hb]
  · unfold stopsScan at h
    rw [Bool.or_eq_true] at h
    rcases h with h | h
    · exact absurd h hb
    · rw [Bool.not_eq_true'] at h
      simp only [Bool.or_eq_false_iff] at h
      obtain ⟨⟨⟨h1, h2⟩, h3⟩, h4⟩ := h
      simp [countBody, hb, h1, h2, h3, h4]

theorem countBody_clean_append (bs tail : List (List Char))
    (hb : ∀ b ∈ bs, isCleanBody b = true) (ht : headStops tail = true) :
    countBody (bs ++ tail) = ⟨oldCountOf bs, newCountOf bs, bs, tail⟩ := by
  induction bs with
  | nil =>
    cases tail with
    | nil => simp [countBody, oldCountOf, newCountOf]
    | cons m ts =>
      have := countBody_stop m ts (by simpa [headStops] using ht)
      simpa [oldCountOf, newCountOf] using this
  | cons b bs ih =>
    have hcb : isCleanBody b = true := hb b (by simp)
    have ih' := ih (fun x hx => hb x (by simp [hx]))
    have hstop : stopsScan b = false := by simpa [isCleanBody] using hcb
    unfold stopsScan at hstop
    rw [Bool.or_eq_false_iff] at hstop
    obtain ⟨hnb, hfour0⟩ := hstop
    have hfour : (startsWithL [' '] b || startsWithL ['-'] b ||
        startsWithL ['+'] b || startsWithL ['\\'] b) = true := by
      cases hx : (startsWithL [' '] b || startsWithL ['-'] b ||
          startsWithL ['+'] b || startsWithL ['\\'] b) with
      | true => rfl
      | false => rw [hx] at hfour0; simp at hfour0
    cases b with
    | nil => simp [startsWithL] at hfour
    | cons c t =>
      have hsw : ∀ d : Char, startsWithL [d] (c :: t) = (d == c) := by
        intro d
        simp [startsWithL]
      rw [Bool.or_eq_true, Bool.or_eq_true, Bool.or_eq_true] at hfour
      rcases hfour with ((h1 | h2) | h3) | h4
      · rw [hsw, beq_iff_eq] at h1
        subst h1
        have e0 : isBoundary (' ' :: t) = false := rfl
        have e1 : startsWithL ['\\'] (' ' :: t) = false := rfl
        have e2 : startsWithL [' '] (' ' :: t) = true := rfl
        have e3 : startsWithL ['-'] (' ' :: t) = false := rfl
        simp only [List.cons_append, countBody, e0, e1, e2, ih']
        simp [oldCountOf, newCountOf, List.filter_cons, e2, e3, ih']
      · rw [hsw, beq_iff_eq] at h2
        subst h2
        have e1 : startsWithL ['\\'] ('-' :: t) = false := rfl
        have e2 : startsWithL [' '] ('-' :: t) = false := rfl
        have e3 : startsWithL ['-'] ('-' :: t) = true := rfl
        have e4 : startsWithL ['+'] ('-' :: t) = false := rfl
        simp only [List.cons_append, countBody, hnb, e1, e2, e3, ih']
        simp [oldCountOf, newCountOf, List.filter_cons, e2, e3, e4, ih']
      · rw [hsw, beq_iff_eq] at h3
        subst h3
        have e1 : startsWithL ['\\'] ('+' :: t) = false := rfl
        have e2 : startsWithL [' '] ('+' :: t) = false := rfl
        have e3 : startsWithL ['-'] ('+' :: t) = false := rfl
        have e4 : startsWithL ['+'] ('+' :: t) = true := rfl
        simp only [List.cons_append, countBody, hnb, e1, e2, e3, e4, ih']
        simp [oldCountOf, newCountOf, List.filter_cons, e2, e3, e4, ih']
      · rw [hsw, beq_iff_eq] at h4
        subst h4
        have e0 : isBoundary ('\\' :: t) = false := rfl
        have e1 : startsWithL ['\\'] ('\\' :: t) = true := rfl
        have e2 : startsWithL [' '] ('\\' :: t) = false := rfl
        have e3 : startsWithL ['-'] ('\\' :: t) = false := rfl
        have e4 : startsWithL ['+'] ('\\' :: t) = false := rfl
        simp only [List.cons_append, countBody, e0, e1, ih']
        simp [oldCountOf, newCountOf, List.filter_cons, e2, e3, e4, ih']

theorem normLinesF_fuel (f : Nat) : ∀ (L : List (List Char)), L.length ≤ f →
    normLinesF f L = normLinesF L.length L := by
  induction f using Nat.strong_induction_on with
  | _ f ih =>
    intro L hL
    cases L with
    | nil => cases f <;> rfl
    | cons l rest =>
      cases f with
      | zero => simp at hL
      | succ f =>
        have hr : rest.length ≤ f := by
          simp at hL
          omega
        cases hp : parseHunkHeader l with
        | none =>
          have e1 : normLinesF (f + 1) (l :: rest) = l :: normLinesF f rest := by
            rw [normLinesF, hp]
          have e2 : normLinesF ((l :: rest).length) (l :: rest) =
              l :: normLinesF rest.length rest := by
            rw [List.length_cons, normLinesF, hp]
          rw [e1, e2, ih f (by omega) rest hr]
        | some p =>
          obtain ⟨os, ns⟩ := p
          have e1 : normLinesF (f + 1) (l :: rest) =
              mkHeaderL os (countBody rest).oldCount ns (countBody rest).newCount ::
                ((countBody rest).consumed ++ normLinesF f (countBody rest).leftover) := by
            rw [normLinesF, hp]
          have e2 : normLinesF ((l :: rest).length) (l :: rest) =
              mkHeaderL os (countBody rest).oldCount ns (countBody rest).newCount ::
                ((countBody rest).consumed ++
                  normLinesF rest.length (countBody rest).leftover) := by
            rw [List.length_cons, normLinesF, hp]
          rw [e1, e2, ih f (by omega) _ (le_trans (countBody_leftover_length_le rest) hr),
            ih rest.length (by omega) _ (countBody_leftover_length_le rest)]

theorem normLines_nil : normLines [] = [] := rfl

theorem normLines_cons (l : List Char) (rest : List (List Char)) :
    normLines (l :: rest) =
      match parseHunkHeader l with
      | none => l :: normLines rest
      | some (os, ns) =>
        mkHeaderL os (countBody rest).oldCount ns (countBody rest).newCount ::
          ((countBody rest).consumed ++ normLines (countBody rest).leftover) := by
  show normLinesF ((l :: rest).length) (l :: rest) = _
  rw [List.length_cons, normLinesF]
  cases hp : parseHunkHeader l with
  | none =>
    simp only [hp]
    rfl
  | some p =>
    obtain ⟨os, ns⟩ := p
    simp only [hp]
    rw [normLinesF_fuel rest.length _ (countBody_leftover_length_le rest)]
    rfl

theorem normLines_header (l os ns : List Char) (bs tail : List (List Char))
    (hl : parseHunkHeader l = some (os, ns))
    (hb : ∀ b ∈ bs, isCleanBody b = true) (ht : headStops tail = true) :
    normLines (l :: (bs ++ tail)) =
      mkHeaderL os (oldCountOf bs) ns (newCountOf bs) :: (bs ++ normLines tail) := by
  rw [normLines_cons, hl, countBody_clean_append bs tail hb ht]

/-! ### Hunk-header parsing of well-shaped headers -/

theorem natDigitsGo_ne_nil : ∀ (fuel n : Nat) (acc : List Char), n < fuel →
    natDigitsGo fuel n acc ≠ [] := by
  intro fuel
  induction fuel with
  | zero => intro n acc h; omega
  | succ fuel ih =>
    intro n acc h
    rw [natDigitsGo]
    split
    · simp
    · rename_i hge
      have h1 : n / 10 < n := Nat.div_lt_self (by omega) (by omega)
      exact ih (n / 10) _ (by omega)

theorem natDigits_ne_nil (n : Nat) : natDigits n ≠ [] :=
  natDigitsGo_ne_nil (n + 1) n [] (by omega)

theorem natDigitsGo_all_digit : ∀ (fuel n : Nat) (acc : List Char),
    (∀ c ∈ acc, Char.isDigit c = true) →
    ∀ c ∈ natDigitsGo fuel n acc, Char.isDigit c = true := by
  intro fuel
  induction fuel with
  | zero =>
    intro n acc hacc c hc
    rw [natDigitsGo] at hc
    exact hacc c hc
  | succ fuel ih =>
    intro n acc hacc c hc
    rw [natDigitsGo] at hc
    split at hc
    · rename_i h
      simp at hc
      rcases hc with rfl | hc
      · interval_cases n <;> decide
      · exact hacc c hc
    · refine ih (n / 10) _ ?_ c hc
      intro d hd
      simp at hd
      rcases hd with rfl | hd
      · have h10 : n % 10 < 10 := Nat.mod_lt _ (by omega)
        set m := n % 10 with hm
        clear_value m
        interval_cases m <;> decide
      · exact hacc d hd

theorem natDigits_all_digit (n : Nat) : ∀ c ∈ natDigits n, Char.isDigit c = true :=
  natDigitsGo_all_digit (n + 1) n [] (by simp)

theorem parseStartField_sp (ds : List Char) (oc : Option (List Char)) (ys : List Char)
    (h1 : ds ≠ []) (h2 : ∀ c ∈ ds, Char.isDigit c = true) (h5 : digitsOpt oc = true) :
    parseStartField (ds ++ optC oc ++ ' ' :: ys) = some (ds, ' ' :: ys) := by
  have hde : ds.isEmpty = false := by
    cases ds with
    | nil => exact absurd rfl h1
    | cons a t => rfl
  cases oc with
  | none =>
    obtain ⟨ht, hd⟩ := takeWhile_append_stop ' ' ys h2 (by decide)
    have ea : ds ++ optC none ++ ' ' :: ys = ds ++ ' ' :: ys := by
      simp [optC]
    rw [ea]
    simp only [parseStartField, ht, hd, hde]
    rfl
  | some d =>
    have h5' : d ≠ [] ∧ ∀ c ∈ d, Char.isDigit c = true := by
      simp [digitsOpt] at h5
      obtain ⟨hne, hall⟩ := h5
      exact ⟨by simpa using hne, by simpa [List.all_eq_true] using hall⟩
    have ea : ds ++ optC (some d) ++ ' ' :: ys = ds ++ ',' :: (d ++ ' ' :: ys) := by
      simp [optC]
    obtain ⟨ht, hd⟩ := @takeWhile_append_stop Char.isDigit ds ',' (d ++ ' ' :: ys) h2 (by decide)
    obtain ⟨ht2, hd2⟩ := @takeWhile_append_stop Char.isDigit d ' ' ys h5'.2 (by decide)
    have hde2 : d.isEmpty = false := by
      cases hdd : d with
      | nil => exact absurd hdd h5'.1
      | cons a t => rfl
    rw [ea]
    simp only [parseStartField, ht, hd, hde]
    simp only [skipOptCount, ht2, hd2, hde2]
    rfl

theorem parseHunkHeader_build (os ns : List Char) (oc nc : Option (List Char))
    (extra : List Char) (h1 : os ≠ []) (h2 : ∀ c ∈ os, Char.isDigit c = true)
    (h3 : ns ≠ []) (h4 : ∀ c ∈ ns, Char.isDigit c = true)
    (h5 : digitsOpt oc = true) (h6 : digitsOpt nc = true) :
    parseHunkHeader (rawHunkHeader os oc ns nc extra) = some (os, ns) := by
  have e1 : rawHunkHeader os oc ns nc extra =
      "@@ -".toList ++
        (os ++ optC oc ++ ' ' :: '+' :: (ns ++ optC nc ++ ' ' :: '@' :: '@' :: extra)) := by
    simp [rawHunkHeader]
  have s1 : expectLit "@@ -".toList (rawHunkHeader os oc ns nc extra) =
      some (os ++ optC oc ++ ' ' :: '+' :: (ns ++ optC nc ++ ' ' :: '@' :: '@' :: extra)) := by
    rw [e1]
    exact expectLit_append _ _
  have s2 := parseStartField_sp os oc
    ('+' :: (ns ++ optC nc ++ ' ' :: '@' :: '@' :: extra)) h1 h2 h5
  have s3 : expectLit " +".toList
      (' ' :: '+' :: (ns ++ optC nc ++ ' ' :: '@' :: '@' :: extra)) =
      some (ns ++ optC nc ++ ' ' :: '@' :: '@' :: extra) :=
    expectLit_append " +".toList (ns ++ optC nc ++ ' ' :: '@' :: '@' :: extra)
  have s4 := parseStartField_sp ns nc ('@' :: '@' :: extra) h3 h4 h6
  have s5 : expectLit " @@".toList (' ' :: '@' :: '@' :: extra) = some extra :=
    expectLit_append " @@".toList extra
  simp only [parseHunkHeader, s1, s2, s3, s4, s5]

/-! ### Structure of an arbitrary body scan -/

theorem countBody_parts (bs : List (List Char)) :
    (countBody bs).consumed ++ (countBody bs).leftover = bs := by
  induction bs with
  | nil => rfl
  | cons b rest ih =>
    simp only [countBody]
    split
    · rfl
    · split
      · simpa using ih
      · split
        · simpa using ih
        · split
          · simpa using ih
          · split
            · simpa using ih
            · rfl

theorem countBody_consumed_clean (bs : List (List Char)) :
    ∀ b ∈ (countBody bs).consumed, isCleanBody b = true := by
  induction bs with
  | nil => simp [countBody]
  | cons b rest ih =>
    simp only [countBody]
    split
    · simp
    · split
      · rename_i hb h1
        intro x hx
        simp at hx
        rcases hx with rfl | hx
        · simp [isCleanBody, stopsScan, hb, h1]
        · exact ih x hx
      · split
        · rename_i hb h1 h2
          intro x hx
          simp at hx
          rcases hx with rfl | hx
          · simp [isCleanBody, stopsScan, hb, h2]
          · exact ih x hx
        · split
          · rename_i hb h1 h2 h3
            intro x hx
            simp at hx
            rcases hx with rfl | hx
            · simp [isCleanBody, stopsScan, hb, h3]
            · exact ih x hx
          · split
            · rename_i hb h1 h2 h3 h4
              intro x hx
              simp at hx
              rcases hx with rfl | hx
              · simp [isCleanBody, stopsScan, hb, h4]
              · exact ih x hx
            · simp

theorem countBody_leftover_stops (bs : List (List Char)) :
    headStops (countBody bs).leftover = true := by
  induction bs with
  | nil => rfl
  | cons b rest ih =>
    simp only [countBody]
    split
    · rename_i hb
      simp [headStops, stopsScan, hb]
    · split
      · simpa using ih
      · split
        · simpa using ih
        · split
          · simpa using ih
          · split
            · simpa using ih
            · rename_i hb h1 h2 h3 h4
              simp [headStops, stopsScan, hb, h1, h2, h3, h4]

theorem countBody_eq_canonical (bs : List (List Char)) :
    countBody bs = ⟨oldCountOf (countBody bs).consumed, newCountOf (countBody bs).consumed,
      (countBody bs).consumed, (countBody bs).leftover⟩ := by
  conv_lhs => rw [← countBody_parts bs]
  exact countBody_clean_append _ _ (countBody_consumed_clean bs) (countBody_leftover_stops bs)

/-! ### Lines, newlines and intercalation -/

theorem isDigit_ne_newline {c : Char} (h : Char.isDigit c = true) : c ≠ '\n' := by
  intro hc
  subst hc
  exact absurd h (by decide)

theorem splitlines_no_newline (cs : List Char) :
    ∀ l ∈ splitlines cs, ∀ c ∈ l, c ≠ '\n' := by
  induction cs with
  | nil => simp [splitlines]
  | cons c rest ih =>
    intro l hl d hd
    rw [splitlines] at hl
    by_cases hc : c = '\n'
    · rw [if_pos hc] at hl
      simp at hl
      rcases hl with rfl | hl
      · simp at hd
      · exact ih l hl d hd
    · rw [if_neg hc] at hl
      cases hs : splitlines rest with
      | nil =>
        rw [hs] at hl
        simp at hl
        subst hl
        simp at hd
        subst hd
        exact hc
      | cons l0 ls =>
        rw [hs] at hl
        simp at hl
        rcases hl with rfl | hl
        · simp at hd
          rcases hd with rfl | hd
          · exact hc
          · exact ih l0 (by rw [hs]; simp) d hd
        · exact ih l (by rw [hs]; simp [hl]) d hd

theorem splitlines_ne_nil {cs : List Char} (h : cs ≠ []) : splitlines cs ≠ [] := by
  cases cs with
  | nil => exact absurd rfl h
  | cons c rest =>
    rw [splitlines]
    by_cases hc : c = '\n'
    · rw [if_pos hc]
      simp
    · rw [if_neg hc]
      cases hs : splitlines rest <;> simp

theorem splitlines_append_newline (x R : List Char) (hnl : ∀ c ∈ x, c ≠ '\n') :
    splitlines (x ++ '\n' :: R) = x :: splitlines R := by
  induction x with
  | nil =>
    rw [List.nil_append, splitlines, if_pos rfl]
  | cons c xs ih =>
    have hc : c ≠ '\n' := hnl c (by simp)
    rw [List.cons_append, splitlines, if_neg hc,
      ih (fun d hd => hnl d (by simp [hd]))]

theorem splitlines_single {x : List Char} (hx : x ≠ []) (hnl : ∀ c ∈ x, c ≠ '\n') :
    splitlines x = [x] := by
  induction x with
  | nil => exact absurd rfl hx
  | cons c xs ih =>
    have hc : c ≠ '\n' := hnl c (by simp)
    rw [splitlines, if_neg hc]
    by_cases hxs : xs = []
    · subst hxs
      rw [show splitlines ([] : List Char) = [] from rfl]
    · rw [ih hxs (fun e he => hnl e (by simp [he]))]

theorem intercalate_cons_cons (s x y : List Char) (rest : List (List Char)) :
    List.intercalate s (x :: y :: rest) = x ++ s ++ List.intercalate s (y :: rest) := by
  simp [List.intercalate, List.intersperse]

theorem splitlines_intercalate : ∀ (L : List (List Char)), L ≠ [] →
    (∀ l ∈ L, ∀ c ∈ l, c ≠ '\n') → L.getLast? ≠ some [] →
    splitlines (List.intercalate ['\n'] L) = L := by
  intro L
  induction L with
  | nil => intro h; exact absurd rfl h
  | cons x rest ih =>
    intro _ hnl hlast
    cases rest with
    | nil =>
      have hx : x ≠ [] := by
        intro h
        exact hlast (by rw [List.getLast?_singleton, h])
      have e : List.intercalate ['\n'] [x] = x := by
        simp [List.intercalate, List.intersperse]
      rw [e]
      exact splitlines_single hx (hnl x (by simp))
    | cons y rest2 =>
      rw [intercalate_cons_cons]
      have happ : x ++ ['\n'] ++ List.intercalate ['\n'] (y :: rest2) =
          x ++ '\n' :: List.intercalate ['\n'] (y :: rest2) := by
        simp
      rw [happ, splitlines_append_newline _ _ (hnl x (by simp))]
      have hrec : splitlines (List.intercalate ['\n'] (y :: rest2)) = y :: rest2 := by
        refine ih (by simp) ?_ ?_
        · intro l hl c hc
          exact hnl l (by simp [hl]) c hc
        · rwa [List.getLast?_cons_cons] at hlast
      rw [hrec]

/-! ### Digit facts about parsed and rewritten headers -/

theorem parseStartField_digits {cs : List Char} {p : List Char × List Char}
    (h : parseStartField cs = some p) :
    p.1 ≠ [] ∧ ∀ c ∈ p.1, Char.isDigit c = true := by
  unfold parseStartField at h
  by_cases he : (cs.takeWhile Char.isDigit).isEmpty = true
  · rw [if_pos he] at h
    cases h
  · rw [if_neg he] at h
    cases hs : skipOptCount (cs.dropWhile Char.isDigit) with
    | none =>
      rw [hs] at h
      cases h
    | some r =>
      rw [hs] at h
      simp only [Option.map, Option.some.injEq] at h
      subst h
      refine ⟨?_, ?_⟩
      · intro hnil
        dsimp only at hnil
        rw [hnil] at he
        exact he rfl
      · intro c hc
        dsimp only at hc
        exact List.mem_takeWhile_imp hc

theorem parseHunkHeader_digits {l os ns : List Char}
    (h : parseHunkHeader l = some (os, ns)) :
    (os ≠ [] ∧ ∀ c ∈ os, Char.isDigit c = true) ∧
      (ns ≠ [] ∧ ∀ c ∈ ns, Char.isDigit c = true) := by
  unfold parseHunkHeader at h
  cases h1 : expectLit "@@ -".toList l with
  | none => simp only [h1] at h; exact Option.noConfusion h
  | some r1 =>
    simp only [h1] at h
    cases h2 : parseStartField r1 with
    | none => simp only [h2] at h; exact Option.noConfusion h
    | some p =>
      obtain ⟨os', r3⟩ := p
      simp only [h2] at h
      cases h3 : expectLit " +".toList r3 with
      | none => simp only [h3] at h; exact Option.noConfusion h
      | some r4 =>
        simp only [h3] at h
        cases h4 : parseStartField r4 with
        | none => simp only [h4] at h; exact Option.noConfusion h
        | some q =>
          obtain ⟨ns', r6⟩ := q
          simp only [h4] at h
          cases h5 : expectLit " @@".toList r6 with
          | none => simp only [h5] at h; exact Option.noConfusion h
          | some r7 =>
            simp only [h5, Option.some.injEq, Prod.mk.injEq] at h
            obtain ⟨rfl, rfl⟩ := h
            exact ⟨parseStartField_digits h2, parseStartField_digits h4⟩

theorem digitsOpt_natDigits (k : Nat) : digitsOpt (some (natDigits k)) = true := by
  have h1 := natDigits_ne_nil k
  have h2 := natDigits_all_digit k
  simp [digitsOpt, List.all_eq_true]
  constructor
  · cases hk : natDigits k with
    | nil => exact absurd hk h1
    | cons a t => simp
  · exact h2

theorem mkHeaderL_eq_raw (os ns : List Char) (a b : Nat) :
    mkHeaderL os a ns b =
      rawHunkHeader os (some (natDigits a)) ns (some (natDigits b)) [] := by
  simp [mkHeaderL, rawHunkHeader, optC]

theorem parse_mkHeaderL (os ns : List Char) (a b : Nat)
    (h1 : os ≠ []) (h2 : ∀ c ∈ os, Char.isDigit c = true)
    (h3 : ns ≠ []) (h4 : ∀ c ∈ ns, Char.isDigit c = true) :
    parseHunkHeader (mkHeaderL os a ns b) = some (os, ns) := by
  rw [mkHeaderL_eq_raw]
  exact parseHunkHeader_build os ns (some (natDigits a)) (some (natDigits b)) [] h1 h2 h3 h4
    (digitsOpt_natDigits a) (digitsOpt_natDigits b)

theorem mkHeaderL_ne_nil (os ns : List Char) (a b : Nat) : mkHeaderL os a ns b ≠ [] := by
  simp [mkHeaderL]

theorem mkHeaderL_no_newline (os ns : List Char) (a b : Nat)
    (hos : ∀ c ∈ os, Char.isDigit c = true) (hns : ∀ c ∈ ns, Char.isDigit c = true) :
    ∀ c ∈ mkHeaderL os a ns b, c ≠ '\n' := by
  intro c hc heq
  subst heq
  simp [mkHeaderL] at hc
  rcases hc with h | h | h | h
  · exact absurd (hos _ h) (by decide)
  · exact absurd (natDigits_all_digit _ _ h) (by decide)
  · exact absurd (hns _ h) (by decide)
  · exact absurd (natDigits_all_digit _ _ h) (by decide)

theorem mkHeaderL_stops (os ns : List Char) (a b : Nat) :
    stopsScan (mkHeaderL os a ns b) = true := by
  have hbd : isBoundary (mkHeaderL os a ns b) = true := by
    have : startsWithL ['@', '@'] (mkHeaderL os a ns b) = true := rfl
    simp [isBoundary, this]
  simp [stopsScan, hbd]

/-! ### Global properties of the line-rewriting pass -/

theorem normLines_length : ∀ (n : Nat) (L : List (List Char)), L.length ≤ n →
    (normLines L).length = L.length := by
  intro n
  induction n with
  | zero =>
    intro L h
    have hL : L = [] := List.length_eq_zero.mp (Nat.le_zero.mp h)
    subst hL
    rw [normLines_nil]
  | succ n ih =>
    intro L hL
    cases L with
    | nil => rw [normLines_nil]
    | cons l rest =>
      have hr : rest.length ≤ n := by
        simp at hL
        omega
      rw [normLines_cons]
      cases hp : parseHunkHeader l with
      | none =>
        simp only [hp, List.length_cons]
        rw [ih rest hr]
      | some p =>
        obtain ⟨os, ns⟩ := p
        simp only [hp, List.length_cons, List.length_append]
        have hlft : (countBody rest).leftover.length ≤ n :=
          le_trans (countBody_leftover_length_le rest) hr
        rw [ih _ hlft]
        have hparts : (countBody rest).consumed.length + (countBody rest).leftover.length =
            rest.length := by
          have h0 := congrArg List.length (countBody_parts rest)
          simpa using h0
        omega

theorem normLines_ne_nil {L : List (List Char)} (h : L ≠ []) : normLines L ≠ [] := by
  intro h0
  have hlen := normLines_length L.length L le_rfl
  rw [h0] at hlen
  exact h (List.length_eq_zero.mp (by simpa using hlen.symm))

theorem normLines_no_newline : ∀ (n : Nat) (L : List (List Char)), L.length ≤ n →
    (∀ l ∈ L, ∀ c ∈ l, c ≠ '\n') → ∀ l' ∈ normLines L, ∀ c ∈ l', c ≠ '\n' := by
  intro n
  induction n with
  | zero =>
    intro L h hn l' hl'
    have hL : L = [] := List.length_eq_zero.mp (Nat.le_zero.mp h)
    subst hL
    rw [normLines_nil] at hl'
    simp at hl'
  | succ n ih =>
    intro L hL hn l' hl' c hc
    cases L with
    | nil =>
      rw [normLines_nil] at hl'
      simp at hl'
    | cons l rest =>
      have hr : rest.length ≤ n := by
        simp at hL
        omega
      rw [normLines_cons] at hl'
      cases hp : parseHunkHeader l with
      | none =>
        simp only [hp] at hl'
        simp at hl'
        rcases hl' with rfl | hl'
        · exact hn _ (by simp) c hc
        · exact ih rest hr (fun x hx => hn x (by simp [hx])) l' hl' c hc
      | some p =>
        obtain ⟨os, ns⟩ := p
        have hdig := parseHunkHeader_digits hp
        simp only [hp] at hl'
        simp at hl'
        rcases hl' with rfl | hl' | hl'
        · exact mkHeaderL_no_newline os ns _ _ hdig.1.2 hdig.2.2 c hc
        · have hmem : l' ∈ rest := by
            rw [← countBody_parts rest]
            exact List.mem_append_left _ hl'
          exact hn l' (by simp [hmem]) c hc
        · have hlft : (countBody rest).leftover.length ≤ n :=
            le_trans (countBody_leftover_length_le rest) hr
          have hsub : ∀ x ∈ (countBody rest).leftover, ∀ d ∈ x, d ≠ '\n' := by
            intro x hx d hd
            have hmem : x ∈ rest := by
              rw [← countBody_parts rest]
              exact List.mem_append_right _ hx
            exact hn x (by simp [hmem]) d hd
          exact ih _ hlft hsub l' hl' c hc

theorem headStops_normLines (L : List (List Char)) (h : headStops L = true) :
    headStops (normLines L) = true := by
  cases L with
  | nil => rw [normLines_nil]; rfl
  | cons m ts =>
    rw [normLines_cons]
    cases hp : parseHunkHeader m with
    | none =>
      simp only [hp]
      simpa [headStops] using h
    | some p =>
      obtain ⟨os, ns⟩ := p
      simp only [hp]
      simp [headStops, mkHeaderL_stops]

theorem normLines_getLast : ∀ (n : Nat) (L : List (List Char)), L.length ≤ n → L ≠ [] →
    ((normLines L).getLast? = L.getLast? ∨
      ∃ os a ns b, (normLines L).getLast? = some (mkHeaderL os a ns b)) := by
  intro n
  induction n with
  | zero =>
    intro L h hne
    exact absurd (List.length_eq_zero.mp (Nat.le_zero.mp h)) hne
  | succ n ih =>
    intro L hL hne
    cases L with
    | nil => exact absurd rfl hne
    | cons l rest =>
      have hr : rest.length ≤ n := by
        simp at hL
        omega
      rw [normLines_cons]
      cases hp : parseHunkHeader l with
      | none =>
        simp only [hp]
        cases hrest : rest with
        | nil =>
          subst hrest
          rw [normLines_nil]
          exact Or.inl rfl
        | cons y ts =>
          subst hrest
          have hnn : normLines (y :: ts) ≠ [] := normLines_ne_nil (by simp)
          obtain ⟨z, zs, hz⟩ := List.exists_cons_of_ne_nil hnn
          rcases ih (y :: ts) hr (by simp) with hA | ⟨os, a, ns, b, hB⟩
          · left
            rw [hz, List.getLast?_cons_cons, ← hz, hA, List.getLast?_cons_cons]
          · right
            exact ⟨os, a, ns, b, by rw [hz, List.getLast?_cons_cons, ← hz, hB]⟩
      | some p =>
        obtain ⟨os, ns⟩ := p
        simp only [hp]
        have hparts := countBody_parts rest
        cases hlft : (countBody rest).leftover with
        | nil =>
          rw [hlft, List.append_nil] at hparts
          rw [normLines_nil, List.append_nil, hparts]
          cases hrest : rest with
          | nil =>
            right
            exact ⟨os, _, ns, _, rfl⟩
          | cons y ts =>
            left
            rw [List.getLast?_cons_cons, List.getLast?_cons_cons]
        | cons m ms =>
          rw [← hlft]
          have hlft_ne : (countBody rest).leftover ≠ [] := by
            rw [hlft]
            simp
          have hnn : normLines (countBody rest).leftover ≠ [] := normLines_ne_nil hlft_ne
          have hrest_ne : rest ≠ [] := by
            rw [← hparts, hlft]
            simp
          have hXne : (countBody rest).consumed ++ normLines (countBody rest).leftover ≠ [] := by
            intro h0
            exact hnn (List.append_eq_nil.mp h0).2
          have h1 : (mkHeaderL os (countBody rest).oldCount ns (countBody rest).newCount ::
              ((countBody rest).consumed ++ normLines (countBody rest).leftover)).getLast? =
              (normLines (countBody rest).leftover).getLast? := by
            have e : mkHeaderL os (countBody rest).oldCount ns (countBody rest).newCount ::
                ((countBody rest).consumed ++ normLines (countBody rest).leftover) =
                [mkHeaderL os (countBody rest).oldCount ns (countBody rest).newCount] ++
                  ((countBody rest).consumed ++ normLines (countBody rest).leftover) := rfl
            rw [e, List.getLast?_append_of_ne_nil _ hXne,
              List.getLast?_append_of_ne_nil _ hnn]
          have h2a : rest.getLast? = (countBody rest).leftover.getLast? := by
            conv_lhs => rw [← hparts]
            exact List.getLast?_append_of_ne_nil _ hlft_ne
          have h2 : (l :: rest).getLast? = (countBody rest).leftover.getLast? := by
            have e : l :: rest = [l] ++ rest := rfl
            rw [e, List.getLast?_append_of_ne_nil _ hrest_ne]
            exact h2a
          have hlft_le : (countBody rest).leftover.length ≤ n :=
            le_trans (countBody_leftover_length_le rest) hr
          rcases ih (countBody rest).leftover hlft_le hlft_ne with hA | ⟨os2, a2, ns2, b2, hB⟩
          · left
            rw [h1, hA, h2]
          · right
            exact ⟨os2, a2, ns2, b2, by rw [h1, hB]⟩

theorem normLines_idem_fuel : ∀ (n : Nat) (L : List (List Char)), L.length ≤ n →
    normLines (normLines L) = normLines L := by
  intro n
  induction n with
  | zero =>
    intro L h
    have hL : L = [] := List.length_eq_zero.mp (Nat.le_zero.mp h)
    subst hL
    rw [normLines_nil, normLines_nil]
  | succ n ih =>
    intro L hL
    cases L with
    | nil => rw [normLines_nil, normLines_nil]
    | cons l rest =>
      have hr : rest.length ≤ n := by
        simp at hL
        omega
      cases hp : parseHunkHeader l with
      | none =>
        have e : normLines (l :: rest) = l :: normLines rest := by
          rw [normLines_cons, hp]
        rw [e]
        have e2 : normLines (l :: normLines rest) = l :: normLines (normLines rest) := by
          rw [normLines_cons, hp]
        rw [e2, ih rest hr]
      | some p =>
        obtain ⟨os, ns⟩ := p
        have hdig := parseHunkHeader_digits hp
        have e : normLines (l :: rest) =
            mkHeaderL os (countBody rest).oldCount ns (countBody rest).newCount ::
              ((countBody rest).consumed ++ normLines (countBody rest).leftover) := by
          rw [normLines_cons, hp]
        rw [e]
        have hparse2 : parseHunkHeader
            (mkHeaderL os (countBody rest).oldCount ns (countBody rest).newCount) =
            some (os, ns) :=
          parse_mkHeaderL os ns _ _ hdig.1.1 hdig.1.2 hdig.2.1 hdig.2.2
        have hstops : headStops (normLines (countBody rest).leftover) = true :=
          headStops_normLines _ (countBody_leftover_stops rest)
        have hmain := normLines_header _ os ns (countBody rest).consumed
          (normLines (countBody rest).leftover) hparse2 (countBody_consumed_clean rest) hstops
        rw [hmain]
        have hc := countBody_eq_canonical rest
        have ho : (countBody rest).oldCount = oldCountOf (countBody rest).consumed := by
          have := congrArg BodyScan.oldCount hc
          simpa using this
        have hn2 : (countBody rest).newCount = newCountOf (countBody rest).consumed := by
          have := congrArg BodyScan.newCount hc
          simpa using this
        have hlft_le : (countBody rest).leftover.length ≤ n :=
          le_trans (countBody_leftover_length_le rest) hr
        rw [ih _ hlft_le, ho, hn2]

theorem normLines_idem (L : List (List Char)) : normLines (normLines L) = normLines L :=
  normLines_idem_fuel L.length L le_rfl

/-- Claim C5 (amended): the hunk-count repair is idempotent on every text
whose last line is not empty (equivalently, whose `splitlines` has no
trailing empty entry) — a trailing empty line is dropped by the first
rewrite join, so a second application can strip one more trailing newline;
and for the hunk with body `[" a", "-b", "+c", "+d"]` the repaired header is
`@@ -1,2 +1,3 @@`. -/
theorem claim_C5 :
    (∀ t : List Char, (splitlines t).getLast? ≠ some [] →
      normalize_unified_diff_hunk_counts (normalize_unified_diff_hunk_counts t) =
        normalize_unified_diff_hunk_counts t) ∧
    normalize_unified_diff_hunk_counts "@@ -1 +1 @@\n a\n-b\n+c\n+d".toList =
      "@@ -1,2 +1,3 @@\n a\n-b\n+c\n+d".toList := by
  have estep : ∀ x : List Char, normalize_unified_diff_hunk_counts x =
      if hasAtAt x = true then List.intercalate ['\n'] (normLines (splitlines x))
      else x := fun x => rfl
  constructor
  · intro t hlast
    by_cases h1 : hasAtAt t = true
    · by_cases h2 : hasAtAt (normalize_unified_diff_hunk_counts t) = true
      · have ht_ne : t ≠ [] := by
          intro h0
          rw [h0] at h1
          exact absurd h1 (by decide)
        have hL_ne : splitlines t ≠ [] := splitlines_ne_nil ht_ne
        have hL'_ne : normLines (splitlines t) ≠ [] := normLines_ne_nil hL_ne
        have e1 : normalize_unified_diff_hunk_counts t =
            List.intercalate ['\n'] (normLines (splitlines t)) := by
          rw [estep, if_pos h1]
        have hnl : ∀ l ∈ normLines (splitlines t), ∀ c ∈ l, c ≠ '\n' :=
          normLines_no_newline (splitlines t).length (splitlines t) le_rfl
            (splitlines_no_newline t)
        have hlast' : (normLines (splitlines t)).getLast? ≠ some [] := by
          rcases normLines_getLast (splitlines t).length (splitlines t) le_rfl hL_ne with
            hA | ⟨os, a, ns, b, hB⟩
          · rw [hA]
            exact hlast
          · rw [hB]
            intro hh
            injection hh with hh
            exact mkHeaderL_ne_nil os ns a b hh
        have e3 : splitlines (normalize_unified_diff_hunk_counts t) =
            normLines (splitlines t) := by
          rw [e1]
          exact splitlines_intercalate _ hL'_ne hnl hlast'
        rw [estep (normalize_unified_diff_hunk_counts t), if_pos h2, e3, normLines_idem]
        exact e1.symm
      · rw [estep (normalize_unified_diff_hunk_counts t), if_neg h2]
    · have e : normalize_unified_diff_hunk_counts t = t := by
        rw [estep, if_neg h1]
      rw [e, e]
  · decide

/-- Counterexample to C5 as stated: on a text ending with an empty line the
first application strips one trailing newline and the second strips another,
so the repair is not idempotent on every input text. -/
theorem claim_C5_cex :
    normalize_unified_diff_hunk_counts
        (normalize_unified_diff_hunk_counts "@@x\n\n".toList) ≠
      normalize_unified_diff_hunk_counts "@@x\n\n".toList := by
  decide

/-- Witness for C5 at a concrete text with a non-empty last line. -/
theorem claim_C5_witness :
    normalize_unified_diff_hunk_counts
        (normalize_unified_diff_hunk_counts "@@ -1 +1 @@\n x".toList) =
      normalize_unified_diff_hunk_counts "@@ -1 +1 @@\n x".toList :=
  claim_C5.1 "@@ -1 +1 @@\n x".toList (by decide)

/-- Claim C4: for a hunk header followed by a well-formed body `bs` (each
line starting with a space, `-`, `+` or `\` and not a boundary) and then a
terminating line (or end of input), the repair recomputes `oldCount` as the
number of body lines starting with a space or `-` and `newCount` as the
number starting with a space or `+` (`\` lines count toward neither), a
malformed line merely terminates counting with the counts accumulated so
far, and the header is rewritten accordingly with the body copied verbatim. -/
theorem claim_C4 (l os ns : List Char) (bs tail : List (List Char))
    (hl : parseHunkHeader l = some (os, ns))
    (hb : ∀ b ∈ bs, isCleanBody b = true) (ht : headStops tail = true) :
    countBody (bs ++ tail) = ⟨oldCountOf bs, newCountOf bs, bs, tail⟩ ∧
      normLines (l :: (bs ++ tail)) =
        mkHeaderL os (oldCountOf bs) ns (newCountOf bs) :: (bs ++ normLines tail) :=
  ⟨countBody_clean_append bs tail hb ht, normLines_header l os ns bs tail hl hb ht⟩

/-- Witness for C4 at a concrete hunk with a `\` marker line and a malformed
terminator. -/
theorem claim_C4_witness :
    countBody ([" a".toList, "-b".toList, "+c".toList, "\\ nl".toList] ++ ["???".toList]) =
      ⟨oldCountOf [" a".toList, "-b".toList, "+c".toList, "\\ nl".toList],
        newCountOf [" a".toList, "-b".toList, "+c".toList, "\\ nl".toList],
        [" a".toList, "-b".toList, "+c".toList, "\\ nl".toList], ["???".toList]⟩ ∧
    normLines ("@@ -3,9 +4 @@ ctx".toList ::
        ([" a".toList, "-b".toList, "+c".toList, "\\ nl".toList] ++ ["???".toList])) =
      mkHeaderL "3".toList
          (oldCountOf [" a".toList, "-b".toList, "+c".toList, "\\ nl".toList]) "4".toList
          (newCountOf [" a".toList, "-b".toList, "+c".toList, "\\ nl".toList]) ::
        ([" a".toList, "-b".toList, "+c".toList, "\\ nl".toList] ++
          normLines ["???".toList]) :=
  claim_C4 "@@ -3,9 +4 @@ ctx".toList "3".toList "4".toList
    [" a".toList, "-b".toList, "+c".toList, "\\ nl".toList] ["???".toList]
    (by decide) (by decide) (by decide)

/-! ### Write containment (module directory check) -/

theorem parentsList_mem_iff (d t : List (List Char)) :
    d ∈ parentsList t ↔ ∃ i, i < t.length ∧ t.take i = d := by
  simp [parentsList]

/-- Claim C1 (amended): the containment check of `write_module_files` admits
a write exactly when the resolved module directory is a (not necessarily
strict) prefix of the resolved target — so nothing is ever written outside
the module directory, but a target exactly equal to the module directory is
admitted by the check, not refused. -/
theorem claim_C1 (moduleDir : List (List Char)) (rel : List Char) :
    write_target_allowed moduleDir rel = true ↔
      List.isPrefixOf moduleDir (resolveTarget moduleDir rel) = true := by
  have hiff1 : write_target_allowed moduleDir rel = true ↔
      (moduleDir ∈ parentsList (resolveTarget moduleDir rel) ∨
        resolveTarget moduleDir rel = moduleDir) := by
    simp only [write_target_allowed]
    split
    · rename_i hcond
      simp at hcond
      simp [hcond.1]
      exact hcond.2
    · rename_i hcond
      simp at hcond
      simp
      by_cases hc : moduleDir ∈ parentsList (resolveTarget moduleDir rel)
      · exact Or.inl hc
      · exact Or.inr (hcond (by simpa using hc))
  rw [hiff1, parentsList_mem_iff, List.isPrefixOf_iff_prefix]
  generalize resolveTarget moduleDir rel = t at *
  constructor
  · rintro (⟨i, hi, hti⟩ | he)
    · exact ⟨List.drop i t, by rw [← hti]; exact List.take_append_drop i t⟩
    · exact ⟨[], by rw [List.append_nil, he]⟩
  · rintro ⟨u, hu⟩
    by_cases hlen : moduleDir.length < t.length
    · left
      exact ⟨moduleDir.length, hlen, by rw [← hu, List.take_left]⟩
    · right
      have hlen2 : t.length = moduleDir.length + u.length := by
        rw [← hu, List.length_append]
      have hu0 : u = [] := List.length_eq_zero.mp (by omega)
      rw [← hu, hu0, List.append_nil]

/-- Counterexample to C1 as stated: the bundle path `"."` is accepted by the
textual safety check, resolves to the module directory itself, and the write
check admits it rather than refusing it. -/
theorem claim_C1_cex :
    is_safe_relative_path ".".toList = true ∧
      resolveTarget ["m".toList] ".".toList = ["m".toList] ∧
      write_target_allowed ["m".toList] ".".toList = true := by
  decide

/-! ### Bundle path safety -/

theorem mem_filter_dotdot (l : List (List Char)) :
    ("..".toList : List Char) ∈ l.filter (fun s => !s.isEmpty) ↔
      ("..".toList : List Char) ∈ l := by
  simp [List.mem_filter]

/-- Claim C2 (amended): `_is_safe_relative_path` rejects a path exactly when,
after replacing every backslash with a slash and trimming whitespace, the
result is empty, starts with `/`, contains a `:`, or has a `..` segment when
split on `/`; in particular it rejects `"/etc/passwd"`, `"../../x"` and
`"C:\x"` and accepts `"include/Foo.php"`. (Rejection is not limited to paths
that literally start with `/`: a leading backslash is rejected too.) -/
theorem claim_C2 :
    (∀ p : List Char,
      is_safe_relative_path p = false ↔ amendedUnsafePath p = true) ∧
    is_safe_relative_path "/etc/passwd".toList = false ∧
    is_safe_relative_path "../../x".toList = false ∧
    is_safe_relative_path "C:\\x".toList = false ∧
    is_safe_relative_path "include/Foo.php".toList = true := by
  refine ⟨?_, by decide, by decide, by decide, by decide⟩
  intro p
  by_cases e1 : pyStrip (replaceBackslash p) = [] <;>
    by_cases e2 : startsWithL ['/'] (pyStrip (replaceBackslash p)) = true <;>
    by_cases e3 : ':' ∈ pyStrip (replaceBackslash p) <;>
    by_cases e4 : ("..".toList : List Char) ∈ splitOnChar '/' (pyStrip (replaceBackslash p)) <;>
    simp [is_safe_relative_path, amendedUnsafePath, mem_filter_dotdot, e1, e2, e3, e4]

/-- Counterexample to C2 as stated: a path beginning with a backslash is
rejected by the code (the backslash is first normalised to a slash), but the
claim's rejection condition does not cover it. -/
theorem claim_C2_cex :
    is_safe_relative_path "\\x".toList = false ∧
      claimC2UnsafePath "\\x".toList = false := by
  decide

/-- Claim C10: a line matching the hunk-header pattern is replaced by exactly
`@@ -oldStart,oldCount +newStart,newCount @@`; any trailing text after the
closing `@@` (such as a function-context annotation) is discarded. -/
theorem claim_C10 (os ns : List Char) (oc nc : Option (List Char)) (extra : List Char)
    (rest : List (List Char)) (h1 : os ≠ []) (h2 : ∀ c ∈ os, Char.isDigit c = true)
    (h3 : ns ≠ []) (h4 : ∀ c ∈ ns, Char.isDigit c = true)
    (h5 : digitsOpt oc = true) (h6 : digitsOpt nc = true) :
    (normLines (rawHunkHeader os oc ns nc extra :: rest)).head? =
      some (mkHeaderL os (countBody rest).oldCount ns (countBody rest).newCount) := by
  rw [normLines_cons, parseHunkHeader_build os ns oc nc extra h1 h2 h3 h4 h5 h6]
  rfl

/-- Witness for C10: a header with noisy counts and a trailing function
annotation is canonicalised; the annotation is dropped. -/
theorem claim_C10_witness :
    (normLines (rawHunkHeader "12".toList (some "9".toList) "3".toList none
        " void foo()".toList :: [" x".toList, "+y".toList])).head? =
      some (mkHeaderL "12".toList (countBody [" x".toList, "+y".toList]).oldCount
        "3".toList (countBody [" x".toList, "+y".toList]).newCount) :=
  claim_C10 "12".toList "3".toList (some "9".toList) none " void foo()".toList
    [" x".toList, "+y".toList] (by decide) (by decide) (by decide) (by decide)
    (by decide) (by decide)

/-- Counterexample to C3 as stated: an entry carrying both a non-empty
`content_lines` array and a non-empty `content_b64` string is decoded from
the base64 field (here `"Qg=="` yielding `"B"`), not from the joined lines
(`"A"`): the `if content_b64 ... / elif content ...` chain overwrites the
lines-join unconditionally. -/
theorem claim_C3_cex :
    decodeBundleEntry ⟨"a.php".toList, some ["A".toList], some "Qg==".toList, []⟩ =
      some "B".toList ∧
    List.intercalate ['\n'] ["A".toList] = "A".toList ∧
    ("B".toList ≠ "A".toList) := by decide

/-- Claim C3 (amended): whenever `content_b64` is present and non-blank, the
parser decodes the entry through the base64 branch regardless of
`content_lines`; the decoded result is unchanged if `content_lines` is
removed. `content_lines` is only used when `content_b64` is absent or blank
and `content` is blank. -/
theorem claim_C3 (e : BundleEntry) (b : List Char)
    (hb : e.content_b64 = some b) (hne : (pyStrip b).isEmpty = false) :
    decodeBundleEntry e = some (b64Branch b e.content) ∧
    decodeBundleEntry e = decodeBundleEntry { e with content_lines := none } := by
  obtain ⟨path, cl, cb, ct⟩ := e
  simp only at hb
  subst hb
  simp [decodeBundleEntry, hne]

/-- Concrete application of `claim_C3`: `content_b64 = "!!!"` is non-blank,
so both entries (with and without `content_lines`) decode identically through
the base64 branch. -/
theorem claim_C3_witness :
    decodeBundleEntry ⟨"a.php".toList, some ["A".toList], some "!!!".toList, "C".toList⟩ =
      some (b64Branch "!!!".toList "C".toList) ∧
    decodeBundleEntry ⟨"a.php".toList, some ["A".toList], some "!!!".toList, "C".toList⟩ =
      decodeBundleEntry ⟨"a.php".toList, none, some "!!!".toList, "C".toList⟩ :=
  claim_C3 ⟨"a.php".toList, some ["A".toList], some "!!!".toList, "C".toList⟩
    "!!!".toList rfl (by decide)

/-- Claim C7: a `\x7b` inside a string literal within the function body does
not perturb brace-depth tracking: on `function f() \x7b $s = "\x7b"; return 1; \x7d`
the located span ends exactly at the position just past the final closing
brace (the document's length, 36). -/
theorem claim_C7 :
    find_php_function_span phpDoc7 "f".toList = Except.ok (0, 36) ∧
    phpDoc7.length = 36 := by decide

theorem findCharAux_spec (c : Char) :
    ∀ (cs : List Char) (i b : Nat), findCharAux c cs i = some b →
      i ≤ b ∧ cs[b - i]? = some c ∧ ∀ k, k < b - i → cs[k]? ≠ some c := by
  intro cs
  induction cs with
  | nil => intro i b h; simp [findCharAux] at h
  | cons d rest ih =>
    intro i b h
    simp only [findCharAux] at h
    by_cases hd : (d == c) = true
    · rw [if_pos hd] at h
      injection h with h
      subst h
      have hdc : d = c := by simpa using hd
      subst hdc
      refine ⟨Nat.le_refl i, ?_, ?_⟩
      · simp
      · intro k hk
        rw [Nat.sub_self] at hk
        omega
    · rw [if_neg hd] at h
      obtain ⟨h1, h3, h4⟩ := ih (i + 1) b h
      refine ⟨by omega, ?_, ?_⟩
      · have e : b - i = (b - (i + 1)) + 1 := by omega
        rw [e]
        simpa using h3
      · intro k hk
        cases k with
        | zero =>
          simp only [List.getElem?_cons_zero]
          intro hsome
          injection hsome with hdc
          exact hd (by simpa using hdc)
        | succ k =>
          have hk2 : k < b - (i + 1) := by omega
          simpa using h4 k hk2

/-- Claim C6 (amended): the scan from the matched signature to the body's
opening brace is a plain textual `text.find`, with no string/comment
awareness: `findCharFrom` returns the least index `≥ p` holding the sought
character, whatever surrounds it. On a document without intervening comment
braces the locator still succeeds. -/
theorem claim_C6 :
    (∀ (t : List Char) (c : Char) (p b : Nat), findCharFrom t c p = some b →
      p ≤ b ∧ t[b]? = some c ∧ ∀ j, p ≤ j → j < b → t[j]? ≠ some c) ∧
    find_php_function_span phpDocPlain "f".toList = Except.ok (0, 26) := by
  refine ⟨?_, by decide⟩
  intro t c p b h
  obtain ⟨h1, h3, h4⟩ := findCharAux_spec c (t.drop p) p b h
  refine ⟨h1, ?_, ?_⟩
  · rw [List.getElem?_drop] at h3
    have e : p + (b - p) = b := by omega
    rwa [e] at h3
  · intro j hpj hjb
    have h5 := h4 (j - p) (by omega)
    rw [List.getElem?_drop] at h5
    have e : p + (j - p) = j := by omega
    rwa [e] at h5

/-- Counterexample to C6 as stated: in
`function f() /* \x7b */ \x7b return 1; \x7d` the signature match ends at
index 11, and the brace scan picks index 16 — the `\x7b` inside the block
comment — so depth tracking starts inside the comment and the locator
reports a brace mismatch even though the body brace at 21 is well formed. -/
theorem claim_C6_cex :
    searchSig phpDocComment (toLowerL "f".toList) = some (0, 11) ∧
    findCharFrom phpDocComment (Char.ofNat 123) 11 = some 16 ∧
    find_php_function_span phpDocComment "f".toList =
      Except.error SpanErr.braceMismatch := by decide

/-- Concrete application of `claim_C6`: the least-index property of the
brace scan at a concrete input. -/
theorem claim_C6_witness :
    0 ≤ 2 ∧ ("ab\x7b".toList)[2]? = some (Char.ofNat 123) ∧
      (∀ j, 0 ≤ j → j < 2 → ("ab\x7b".toList)[j]? ≠ some (Char.ofNat 123)) :=
  claim_C6.1 "ab\x7b".toList (Char.ofNat 123) 0 2 (by decide)

/-- Claim C8: the validator fails (exit code 2) exactly when the
error-severity finding count is positive; `warn`/`info` findings alone never
fail it. On `"TODO: fix this\n"` the single finding is an error-severity
`placeholder.todo`, and the run fails; on `"hello\n"` the error count is 0
and the exit code is 0. -/
theorem claim_C8 :
    (∀ (text : List Char) (pathOk : List Char → Bool) (isDiffSuffix : Bool)
        (lintFinding : Option Finding),
      main_exit_code text pathOk isDiffSuffix lintFinding = 2 ↔
        0 < countSeverity (validate_file_findings text pathOk isDiffSuffix lintFinding)
          "error".toList) ∧
    (main_exit_code "TODO: fix this\n".toList (fun _ => false) false none = 2 ∧
      validate_file_findings "TODO: fix this\n".toList (fun _ => false) false none =
        [⟨"error".toList, "placeholder.todo".toList,
          "Matched pattern: (?mi)^(\\s*//\\s*)?(TODO|FIXME|TBD)\\b".toList⟩]) ∧
    (countSeverity (validate_file_findings "hello\n".toList (fun _ => false) false none)
        "error".toList = 0 ∧
      main_exit_code "hello\n".toList (fun _ => false) false none = 0) := by
  refine ⟨?_, ⟨by decide, by decide⟩, by decide, by decide⟩
  intro text pathOk isDiff lintF
  simp only [main_exit_code, countSeverity]
  by_cases h : ((validate_file_findings text pathOk isDiff lintF).filter
      (fun f => f.severity == "error".toList)).isEmpty = true
  · rw [if_pos h]
    rw [List.isEmpty_iff] at h
    constructor
    · intro h2
      exact absurd h2 (by decide)
    · intro hlen
      rw [h] at hlen
      simp at hlen
  · rw [if_neg h]
    rw [List.isEmpty_iff] at h
    exact ⟨fun _ => List.length_pos.mpr h, fun _ => rfl⟩

theorem countCode_append (fs gs : List Finding) (code : List Char) :
    countCode (fs ++ gs) code = countCode fs code + countCode gs code := by
  simp [countCode, List.filter_append]

theorem countCode_fence (text : List Char) (code : List Char)
    (h : ¬("artifact.markdown_fence".toList = code)) :
    countCode (fenceFindings text) code = 0 := by
  unfold countCode
  rw [List.length_eq_zero, List.filter_eq_nil_iff]
  intro f hf
  unfold fenceFindings at hf
  by_cases hf3 : hasTripleTick text = true
  · rw [if_pos hf3] at hf
    simp at hf
    subst hf
    simp only [beq_iff_eq]
    exact h
  · rw [if_neg hf3] at hf
    simp at hf

theorem mkIncludeFinding_code (pathOk : List Char → Bool) (raw0 : List Char)
    (f : Finding) (h : mkIncludeFinding pathOk raw0 = some f) :
    f.code = "path.missing".toList := by
  simp only [mkIncludeFinding] at h
  split at h
  · exact Option.noConfusion h
  · split at h
    · exact Option.noConfusion h
    · split at h
      · injection h with h
        subst h
        rfl
      · exact Option.noConfusion h

theorem countCode_includes (text : List Char) (pathOk : List Char → Bool)
    (code : List Char) (h : ¬("path.missing".toList = code)) :
    countCode (includeFindings text pathOk) code = 0 := by
  unfold countCode
  rw [List.length_eq_zero, List.filter_eq_nil_iff]
  intro f hf
  obtain ⟨r, hr, hg⟩ := List.mem_filterMap.mp hf
  have hc := mkIncludeFinding_code pathOk r f hg
  simp only [hc, beq_iff_eq]
  exact h

theorem countCode_patterns_cons (text : List Char)
    (a : List Char × List Char × List Char × (List Char → Bool))
    (l : List (List Char × List Char × List Char × (List Char → Bool)))
    (code : List Char) :
    countCode ((a :: l).filterMap (mkPatternFinding text)) code =
      (if a.2.2.2 text = true ∧ a.2.1 = code then 1 else 0) +
        countCode (l.filterMap (mkPatternFinding text)) code := by
  rw [List.filterMap_cons]
  by_cases hs : a.2.2.2 text = true
  · have hmk : mkPatternFinding text a =
        some ⟨a.1, a.2.1, "Matched pattern: ".toList ++ a.2.2.1⟩ := by
      unfold mkPatternFinding
      rw [if_pos hs]
    rw [hmk]
    by_cases hc : a.2.1 = code
    · simp [countCode, List.filter_cons, hs, hc]
      omega
    · simp [countCode, List.filter_cons, hs, hc]
  · have hmk : mkPatternFinding text a = none := by
      unfold mkPatternFinding
      rw [if_neg hs]
    rw [hmk]
    simp [hs]

/-- Claim C9 (amended): each placeholder pattern contributes at most one
finding per validation, namely exactly one when `re.search` matches anywhere
in the text and none otherwise — never one finding per match occurrence. -/
theorem claim_C9 (text : List Char) (pathOk : List Char → Bool) :
    countCode (validate_text text pathOk) "placeholder.todo".toList =
      (if searchTodo text = true then 1 else 0) ∧
    countCode (validate_text text pathOk) "placeholder.not_implemented".toList =
      (if searchNotImpl text = true then 1 else 0) ∧
    countCode (validate_text text pathOk) "placeholder.replace_me".toList =
      (if searchReplaceMe text = true then 1 else 0) ∧
    countCode (validate_text text pathOk) "placeholder.your_value".toList =
      (if searchYourValue text = true then 1 else 0) ∧
    countCode (validate_text text pathOk) "placeholder.example".toList =
      (if searchExample text = true then 1 else 0) ∧
    countCode (validate_text text pathOk) "artifact.ellipsis".toList =
      (if searchEllipsis text = true then 1 else 0) := by
  refine ⟨?_, ?_, ?_, ?_, ?_, ?_⟩
  · unfold validate_text
    rw [countCode_append, countCode_append]
    rw [countCode_fence _ _ (by decide), countCode_includes _ _ _ (by decide)]
    unfold patternFindings placeholderChecks
    rw [countCode_patterns_cons, countCode_patterns_cons, countCode_patterns_cons,
        countCode_patterns_cons, countCode_patterns_cons, countCode_patterns_cons]
    have ne1 : ¬("placeholder.not_implemented".toList = "placeholder.todo".toList) := by decide
    have ne2 : ¬("placeholder.replace_me".toList = "placeholder.todo".toList) := by decide
    have ne3 : ¬("placeholder.your_value".toList = "placeholder.todo".toList) := by decide
    have ne4 : ¬("placeholder.example".toList = "placeholder.todo".toList) := by decide
    have ne5 : ¬("artifact.ellipsis".toList = "placeholder.todo".toList) := by decide
    simp [countCode, ne1, ne2, ne3, ne4, ne5]
  · unfold validate_text
    rw [countCode_append, countCode_append]
    rw [countCode_fence _ _ (by decide), countCode_includes _ _ _ (by decide)]
    unfold patternFindings placeholderChecks
    rw [countCode_patterns_cons, countCode_patterns_cons, countCode_patterns_cons,
        countCode_patterns_cons, countCode_patterns_cons, countCode_patterns_cons]
    have ne0 : ¬("placeholder.todo".toList = "placeholder.not_implemented".toList) := by decide
    have ne2 : ¬("placeholder.replace_me".toList = "placeholder.not_implemented".toList) := by decide
    have ne3 : ¬("placeholder.your_value".toList = "placeholder.not_implemented".toList) := by decide
    have ne4 : ¬("placeholder.example".toList = "placeholder.not_implemented".toList) := by decide
    have ne5 : ¬("artifact.ellipsis".toList = "placeholder.not_implemented".toList) := by decide
    simp [countCode, ne0, ne2, ne3, ne4, ne5]
  · unfold validate_text
    rw [countCode_append, countCode_append]
    rw [countCode_fence _ _ (by decide), countCode_includes _ _ _ (by decide)]
    unfold patternFindings placeholderChecks
    rw [countCode_patterns_cons, countCode_patterns_cons, countCode_patterns_cons,
        countCode_patterns_cons, countCode_patterns_cons, countCode_patterns_cons]
    have ne0 : ¬("placeholder.todo".toList = "placeholder.replace_me".toList) := by decide
    have ne1 : ¬("placeholder.not_implemented".toList = "placeholder.replace_me".toList) := by decide
    have ne3 : ¬("placeholder.your_value".toList = "placeholder.replace_me".toList) := by decide
    have ne4 : ¬("placeholder.example".toList = "placeholder.replace_me".toList) := by decide
    have ne5 : ¬("artifact.ellipsis".toList = "placeholder.replace_me".toList) := by decide
    simp [countCode, ne0, ne1, ne3, ne4, ne5]
  · unfold validate_text
    rw [countCode_append, countCode_append]
    rw [countCode_fence _ _ (by decide), countCode_includes _ _ _ (by decide)]
    unfold patternFindings placeholderChecks
    rw [countCode_patterns_cons, countCode_patterns_cons, countCode_patterns_cons,
        countCode_patterns_cons, countCode_patterns_cons, countCode_patterns_cons]
    have ne0 : ¬("placeholder.todo".toList = "placeholder.your_value".toList) := by decide
    have ne1 : ¬("placeholder.not_implemented".toList = "placeholder.your_value".toList) := by decide
    have ne2 : ¬("placeholder.replace_me".toList = "placeholder.your_value".toList) := by decide
    have ne4 : ¬("placeholder.example".toList = "placeholder.your_value".toList) := by decide
    have ne5 : ¬("artifact.ellipsis".toList = "placeholder.your_value".toList) := by decide
    simp [countCode, ne0, ne1, ne2, ne4, ne5]
  · unfold validate_text
    rw [countCode_append, countCode_append]
    rw [countCode_fence _ _ (by decide), countCode_includes _ _ _ (by decide)]
    unfold patternFindings placeholderChecks
    rw [countCode_patterns_cons, countCode_patterns_cons, countCode_patterns_cons,
        countCode_patterns_cons, countCode_patterns_cons, countCode_patterns_cons]
    have ne0 : ¬("placeholder.todo".toList = "placeholder.example".toList) := by decide
    have ne1 : ¬("placeholder.not_implemented".toList = "placeholder.example".toList) := by decide
    have ne2 : ¬("placeholder.replace_me".toList = "placeholder.example".toList) := by decide
    have ne3 : ¬("placeholder.your_value".toList = "placeholder.example".toList) := by decide
    have ne5 : ¬("artifact.ellipsis".toList = "placeholder.example".toList) := by decide
    simp [countCode, ne0, ne1, ne2, ne3, ne5]
  · unfold validate_text
    rw [countCode_append, countCode_append]
    rw [countCode_fence _ _ (by decide), countCode_includes _ _ _ (by decide)]
    unfold patternFindings placeholderChecks
    rw [countCode_patterns_cons, countCode_patterns_cons, countCode_patterns_cons,
        countCode_patterns_cons, countCode_patterns_cons, countCode_patterns_cons]
    have ne0 : ¬("placeholder.todo".toList = "artifact.ellipsis".toList) := by decide
    have ne1 : ¬("placeholder.not_implemented".toList = "artifact.ellipsis".toList) := by decide
    have ne2 : ¬("placeholder.replace_me".toList = "artifact.ellipsis".toList) := by decide
    have ne3 : ¬("placeholder.your_value".toList = "artifact.ellipsis".toList) := by decide
    have ne4 : ¬("placeholder.example".toList = "artifact.ellipsis".toList) := by decide
    simp [countCode, ne0, ne1, ne2, ne3, ne4]

/-- Counterexample to C9 as stated: `"TODO a\nTODO b\n"` contains two
distinct matches of the TODO pattern (at the starts of both lines), yet the
validator emits a single `placeholder.todo` finding, not two. -/
theorem claim_C9_cex :
    todoAt none "TODO a\nTODO b\n".toList = true ∧
    todoAt (some (Char.ofNat 10)) "TODO b\n".toList = true ∧
    countCode (validate_text "TODO a\nTODO b\n".toList (fun _ => false))
      "placeholder.todo".toList = 1 := by decide

end SuiteGen
